import Mathlib

/-!
# Verification of the event-extraction / deduplication core of `generate_ics.py`

This file is a shallow embedding, in Lean 4, of the core of
`src/generate_ics.py`: the helpers `normalize_whitespace`,
`canonicalize_activity_text`, `parse_date_from_line`, `parse_time_from_line`,
and the pipeline `build_events` (extraction loop, dict-based deduplication,
UID assignment, final sort).  Strings are modelled as `List Char` internally
(`String` at the API boundary), Python `datetime` values as a plain record
of calendar fields in the fixed timezone `Europe/Stockholm`, and the regular
expressions of the source by executable scanners over maximal runs of
word characters, which realize exactly the `\b`-delimited patterns used by
the source (each scanner's doc comment states the equivalence argument).

Python's `hash` for strings is salted per process; the embedding therefore
takes the process string-hash function as an explicit parameter `pyHash` of
`build_events`.  Likewise `datetime.now(TZ).year` is passed in as `nowYear`,
and an out-of-range day given to `datetime(...)` (a `ValueError` escaping
`build_events`) is modelled by `Except Unit`.
-/

namespace GenerateIcs

/-! ## Characters

Python's `re` module is Unicode-aware: `\w` is letters, digits and `_`,
`\s` is whitespace, and `str.lower` lowercases letters.  The model fixes the
alphabet to ASCII plus the non-ASCII letters that occur in the source's
vocabularies (Swedish month, weekday and schedule text: `å ä ö é ü` and
their upper-case forms); on this alphabet the definitions below agree with
Python's. -/

/-- Python `\d`: an ASCII decimal digit. -/
def isPyDigit (c : Char) : Bool :=
  '0' ≤ c && c ≤ '9'

/-- Python `\s` on ASCII: space, tab, newline, carriage return, vertical tab,
form feed. -/
def isPySpace (c : Char) : Bool :=
  c = ' ' || c = '\t' || c = '\n' || c = '\r' || c = '\x0b' || c = '\x0c'

/-- The non-ASCII letters of the modelled alphabet. -/
def extraLetters : List Char :=
  ['å', 'ä', 'ö', 'é', 'ü', 'Å', 'Ä', 'Ö', 'É', 'Ü']

/-- Python `\w` (a "word character", the notion underlying `\b` boundaries):
a letter, a digit or an underscore. -/
def isWordChar (c : Char) : Bool :=
  ('a' ≤ c && c ≤ 'z') || ('A' ≤ c && c ≤ 'Z') || isPyDigit c || c = '_' ||
    extraLetters.contains c

/-- The upper → lower table backing `pyLower` (Python `str.lower`) on the
modelled alphabet. -/
def lowerPairs : List (Char × Char) :=
  [('A', 'a'), ('B', 'b'), ('C', 'c'), ('D', 'd'), ('E', 'e'), ('F', 'f'),
   ('G', 'g'), ('H', 'h'), ('I', 'i'), ('J', 'j'), ('K', 'k'), ('L', 'l'),
   ('M', 'm'), ('N', 'n'), ('O', 'o'), ('P', 'p'), ('Q', 'q'), ('R', 'r'),
   ('S', 's'), ('T', 't'), ('U', 'u'), ('V', 'v'), ('W', 'w'), ('X', 'x'),
   ('Y', 'y'), ('Z', 'z'), ('Å', 'å'), ('Ä', 'ä'), ('Ö', 'ö'), ('É', 'é'),
   ('Ü', 'ü')]

/-- Python `str.lower`, character by character, on the modelled alphabet. -/
def pyLower (c : Char) : Char :=
  match lowerPairs.find? (fun p => p.1 = c) with
  | some p => p.2
  | none => c

/-- `str.lower` on a character list. -/
def lowerL (s : List Char) : List Char :=
  s.map pyLower

/-! ## `normalize_whitespace` (source lines 64-65)

`re.sub(r"\s+", " ", s).strip()`: the substitution rewrites every maximal
whitespace run to a single space (`collapseChars`), and `strip` then removes
the whitespace at both ends (`pyStrip`). -/

/-- `re.sub(r"\s+", " ", s)`: each maximal run of whitespace characters
becomes one space (a whitespace character is dropped when the next
character is also whitespace, and rewritten to `' '` otherwise, which
collapses every maximal run to its last character, rewritten). -/
def collapseChars : List Char → List Char
  | [] => []
  | [c] => if isPySpace c then [' '] else [c]
  | c :: d :: cs =>
    if isPySpace c then
      if isPySpace d then collapseChars (d :: cs)
      else ' ' :: collapseChars (d :: cs)
    else c :: collapseChars (d :: cs)

/-- Python `str.strip()`: drop whitespace from both ends. -/
def pyStrip (s : List Char) : List Char :=
  ((s.dropWhile isPySpace).reverse.dropWhile isPySpace).reverse

/-- `re.sub(r"\s+", " ", s).strip()` on character lists. -/
def collapseStrip (s : List Char) : List Char :=
  pyStrip (collapseChars s)

/-- `normalize_whitespace` of the source (lines 64-65). -/
def normalize_whitespace (s : String) : String :=
  (collapseStrip s.data).asString

/-- Invariant characterizing the whitespace shape of `collapseChars`
output: every whitespace character is `' '` and no two whitespace
characters are adjacent. -/
def WsNormal (s : List Char) : Prop :=
  (∀ c ∈ s, isPySpace c = true → c = ' ') ∧
    List.Chain' (fun a b => ¬(isPySpace a = true ∧ isPySpace b = true)) s

/-- Invariant characterizing `pyStrip` output: no leading and no trailing
whitespace. -/
def Stripped (s : List Char) : Prop :=
  s.dropWhile isPySpace = s ∧ s.reverse.dropWhile isPySpace = s.reverse

/-! ## Maximal word-character runs

All the regex patterns of the source (`TIME_RE`, `DATE_RE`, and the
substitutions inside `canonicalize_activity_text`) are anchored with `\b` on
both sides.  A `\b` boundary sits exactly at the edges of the maximal runs
of word characters, so each pattern's action is a function of the list of
maximal runs.  `runsP p` splits a character list into its maximal runs of
`p`-equal characters (both polarities kept, in order, concatenating back to
the input). -/

def runsP (p : Char → Bool) : List Char → List (List Char)
  | [] => []
  | [c] => [[c]]
  | c :: d :: cs =>
    match runsP p (d :: cs) with
    | [] => [[c]]
    | r :: rs => if p c = p d then (c :: r) :: rs else [c] :: r :: rs

/-- Whether a run contains a word character (with homogeneous runs:
whether it is a word run). -/
def wordItem (r : List Char) : Bool :=
  r.any isWordChar

/-- Word-character status of the first character (`false` on the empty
list). -/
def headIsWord : List Char → Bool
  | [] => false
  | c :: _ => isWordChar c

/-- The maximal word-character runs of `s`, in order (the `\b`-delimited
words of Python's `re`). -/
def wordRuns : List Char → List (List Char)
  | [] => []
  | [c] => if isWordChar c then [[c]] else []
  | c :: d :: cs =>
    if isWordChar c then
      if isWordChar d then
        match wordRuns (d :: cs) with
        | [] => [[c]]
        | r :: rs => (c :: r) :: rs
      else [c] :: wordRuns (d :: cs)
    else wordRuns (d :: cs)

/-! ## Vocabulary (source lines 12-35, 43, 46-47)

`DATE_RE`'s month alternation `jan(?:uari)?|feb(?:ruari)?|...` matches, at a
position followed by `\b`, exactly the complete tokens listed in
`monthTokens` (a shorter prefix such as `jan` inside `janu` is rejected by
the trailing `\b`).  The same alternation is reused by the month
substitution of `canonicalize_activity_text`. -/

/-- The complete month tokens (lower case) accepted by the alternation of
`DATE_RE` and of the month substitution in `canonicalize_activity_text`. -/
def monthTokens : List (List Char) :=
  ["jan".data, "januari".data, "feb".data, "februari".data, "mar".data,
   "mars".data, "apr".data, "april".data, "maj".data, "jun".data,
   "juni".data, "jul".data, "juli".data, "aug".data, "augusti".data,
   "sep".data, "september".data, "okt".data, "oktober".data, "nov".data,
   "november".data, "dec".data, "december".data]

/-- The `MONTHS` dictionary (source lines 22-35), as an association list in
source order. -/
def MONTHS : List (List Char × Nat) :=
  [("jan".data, 1), ("januari".data, 1),
   ("feb".data, 2), ("februari".data, 2),
   ("mar".data, 3), ("mars".data, 3),
   ("apr".data, 4), ("april".data, 4),
   ("maj".data, 5),
   ("jun".data, 6), ("juni".data, 6),
   ("jul".data, 7), ("juli".data, 7),
   ("aug".data, 8), ("augusti".data, 8),
   ("sep".data, 9), ("september".data, 9),
   ("okt".data, 10), ("oktober".data, 10),
   ("nov".data, 11), ("november".data, 11),
   ("dec".data, 12), ("december".data, 12)]

/-- `MONTHS.get(k)` of Python: first (only) binding of `k`, if any. -/
def monthsGet (k : List Char) : Option Nat :=
  (MONTHS.find? (fun p => p.1 = k)).map (fun p => p.2)

/-- The Swedish weekday names removed by `canonicalize_activity_text`
(source line 43). -/
def weekdayTokens : List (List Char) :=
  ["måndag".data, "tisdag".data, "onsdag".data, "torsdag".data,
   "fredag".data, "lördag".data, "söndag".data]

/-! ## Run predicates

The `\b`-anchored sub-patterns, expressed as predicates on a maximal word
run (see the scanner doc comments for why the whole run must match). -/

/-- A maximal word run matching `\b\d{1,2}` followed by a non-digit:
the run is entirely digits and has length 1 or 2. -/
def isNum12 (r : List Char) : Bool :=
  !r.isEmpty && r.all isPyDigit && r.length ≤ 2

/-- A maximal word run matching `\d{2}\b` from its start: exactly two
digits. -/
def isTwoDigits (r : List Char) : Bool :=
  r.length = 2 && r.all isPyDigit

/-- A maximal word run that is one of the weekday names (the weekday
substitution is applied to the already lower-cased string). -/
def isWeekdayTok (r : List Char) : Bool :=
  weekdayTokens.contains r

/-- A maximal word run matched completely by the month alternation, up to
ASCII case (the alternations carry `re.IGNORECASE`). -/
def isMonthTok (r : List Char) : Bool :=
  monthTokens.contains (lowerL r)

/-- The run triple `w₁, sep, w₂` matching `TIME_RE`'s
`\b(\d{1,2})[:.](\d{2})\b`:

* the leading `\b` and the following separator force `w₁` to be a complete
  maximal word run of 1-2 digits (inside a longer digit run there is no
  boundary, and a trailing non-digit word character defeats `[:.]`);
* `[:.]` consumes one character and the following `\d` is a word character,
  so the separating non-word run is exactly one `:` or `.`;
* `\d{2}\b` forces `w₂` to be a complete run of exactly two digits. -/
def isTimeTriple (w₁ sep w₂ : List Char) : Bool :=
  isNum12 w₁ && (sep = [':'] || sep = ['.']) && isTwoDigits w₂

/-! ## `TIME_RE.search` and the time substitution (source lines 12, 41, 88-96)

Both walk the alternating run list of the line.  A match of
`\b(\d{1,2})[:.](\d{2})\b` is exactly a run triple satisfying
`isTimeTriple`; matches are found leftmost-first, and `re.sub` continues
after the matched text. -/

/-- `TIME_RE.search`, returning the two digit groups of the leftmost match:
scan the run list for the first time triple. -/
def timeSearchRuns : List (List Char) → Option (List Char × List Char)
  | w₁ :: sep :: w₂ :: rest =>
    if isTimeTriple w₁ sep w₂ then some (w₁, w₂)
    else timeSearchRuns (sep :: w₂ :: rest)
  | _ => none

/-- `re.sub(r"\b\d{1,2}[:.]\d{2}\b", " ", ·)` on the run list: rewrite each
(leftmost-first, non-overlapping) time triple to a single space. -/
def timeSub : List (List Char) → List (List Char)
  | w₁ :: sep :: w₂ :: rest =>
    if isTimeTriple w₁ sep w₂ then [' '] :: timeSub rest
    else w₁ :: timeSub (sep :: w₂ :: rest)
  | rs => rs

/-- `int` of a digit run. -/
def digitsVal (r : List Char) : Nat :=
  r.foldl (fun n c => n * 10 + (c.toNat - '0'.toNat)) 0

/-- `parse_time_from_line` (source lines 88-96): search for `TIME_RE`, and
keep the pair only when `0 <= hh <= 23` and `0 <= mm <= 59`. -/
def parse_time_from_line (line : String) : Option (Nat × Nat) :=
  match timeSearchRuns (runsP isWordChar line.data) with
  | none => none
  | some (g₁, g₂) =>
    let hh := digitsVal g₁
    let mm := digitsVal g₂
    if hh ≤ 23 && mm ≤ 59 then some (hh, mm) else none

/-! ## `DATE_RE.search` (source lines 15-20, 75-85)

`\b(\d{1,2})\s+(jan(?:uari)?|...)\b` with `re.IGNORECASE`: a match is a
complete 1-2 digit word run, followed by a non-word run consisting entirely
of whitespace (`\s+` must reach the month token, whose first letter is a
word character), followed by a complete word run equal (case-insensitively)
to one of the month tokens. -/

/-- Whether a run triple matches `DATE_RE`. -/
def isDateTriple (w₁ sep w₂ : List Char) : Bool :=
  isNum12 w₁ && sep.all isPySpace && isMonthTok w₂

/-- `DATE_RE.search` on the run list, returning `(group 1, group 2)` of the
leftmost match: the day digits and the month token as matched. -/
def dateSearchRuns : List (List Char) → Option (List Char × List Char)
  | w₁ :: sep :: w₂ :: rest =>
    if isDateTriple w₁ sep w₂ then some (w₁, w₂)
    else dateSearchRuns (sep :: w₂ :: rest)
  | _ => none

/-! ## `canonicalize_activity_text` (source lines 38-55)

The stages in source order: lower-case; remove time patterns; remove
weekday names; remove standalone 1-2 digit numbers (`\b\d{1,2}\b`); remove
month tokens (`re.IGNORECASE`); replace `|` by a space; collapse whitespace
and strip.  Every substitution pattern is `\b`-anchored, so each acts on
the maximal word runs; replacements insert `" "`, which never joins two word
runs, so applying the later word-wise stages directly to the (partly
rewritten) run list of the lower-cased input is exactly the sequential
`re.sub` chain: a run rewritten to `[' ']` is non-word and matches no later
word pattern, and all other runs are left character-identical. -/

/-- `re.sub(r"\b(måndag|...|söndag)\b", " ", ·)` on the run list. -/
def weekdaySub (rs : List (List Char)) : List (List Char) :=
  rs.map (fun r => if isWeekdayTok r then [' '] else r)

/-- `re.sub(r"\b\d{1,2}\b", " ", ·)` on the run list: a complete word run
of 1-2 digits (inside a longer word run there is no boundary). -/
def numberSub (rs : List (List Char)) : List (List Char) :=
  rs.map (fun r => if isNum12 r then [' '] else r)

/-- `re.sub(r"\b(jan(?:uari)?|...)\b", " ", ·, flags=IGNORECASE)` on the
run list. -/
def monthSub (rs : List (List Char)) : List (List Char) :=
  rs.map (fun r => if isMonthTok r then [' '] else r)

/-- `s.replace("|", " ")`, character by character. -/
def pipeRep (s : List Char) : List Char :=
  s.map (fun c => if c = '|' then ' ' else c)

/-- The canonicalization stages after lower-casing, on the run list. -/
def canonStages (rs : List (List Char)) : List (List Char) :=
  monthSub (numberSub (weekdaySub (timeSub rs)))

/-- `canonicalize_activity_text` on character lists. -/
def canonL (s : List Char) : List Char :=
  collapseStrip (pipeRep (canonStages (runsP isWordChar (lowerL s))).flatten)

/-- `canonicalize_activity_text` (source lines 38-55). -/
def canonicalize_activity_text (s : String) : String :=
  (canonL s.data).asString

/-! ## Datetimes (source lines 2, 10, 75-85, 100, 117, 131, 144, 159)

All datetimes of the pipeline carry the fixed timezone
`Europe/Stockholm`, so `astimezone(TZ)` is the identity and `<` on them is
modelled by wall-clock (lexicographic) comparison.  `datetime + timedelta`
adds wall-clock time with calendar rollover.  `isoformat` prints the UTC
offset, `+02:00` during EU summer time (from the last Sunday of March,
03:00 wall clock, to the last Sunday of October, 03:00 wall clock — the
`fold=0` reading of the ambiguous/nonexistent hour) and `+01:00`
otherwise. -/

/-- A `datetime` in the fixed timezone `TZ = Europe/Stockholm` (seconds and
microseconds are always zero in this pipeline). -/
structure DT where
  year : Nat
  month : Nat
  day : Nat
  hour : Nat
  minute : Nat
  deriving DecidableEq, Repr

/-- Gregorian leap year. -/
def isLeap (y : Nat) : Bool :=
  (y % 4 = 0 && y % 100 ≠ 0) || y % 400 = 0

/-- Days in a month. -/
def daysInMonth (y m : Nat) : Nat :=
  if m = 2 then (if isLeap y then 29 else 28)
  else if m = 4 || m = 6 || m = 9 || m = 11 then 30
  else 31

/-- `datetime(year, month, day, 0, 0, tzinfo=TZ)`: `None` when the
constructor would raise `ValueError`. -/
def mkDatetime (y m d : Nat) : Option DT :=
  if 1 ≤ y && y ≤ 9999 && 1 ≤ m && m ≤ 12 && 1 ≤ d && d ≤ daysInMonth y m then
    some ⟨y, m, d, 0, 0⟩
  else none

/-- Add one day, with month/year rollover. -/
def nextDay (dt : DT) : DT :=
  if dt.day + 1 ≤ daysInMonth dt.year dt.month then
    { dt with day := dt.day + 1 }
  else if dt.month + 1 ≤ 12 then
    { dt with day := 1, month := dt.month + 1 }
  else
    { dt with day := 1, month := 1, year := dt.year + 1 }

/-- Add days. -/
def addDays (dt : DT) : Nat → DT
  | 0 => dt
  | n + 1 => addDays (nextDay dt) n

/-- `dt + timedelta(minutes=n)`: wall-clock addition with rollover (on an
aware `datetime`, `timedelta` arithmetic is performed on the wall-clock
fields). -/
def addMinutes (dt : DT) (n : Nat) : DT :=
  let t := dt.hour * 60 + dt.minute + n
  let dt' := addDays { dt with hour := 0, minute := 0 } (t / (24 * 60))
  { dt' with hour := t % (24 * 60) / 60, minute := t % 60 }

/-- Chronological strict order on same-timezone datetimes (Python `<`). -/
def dtLt (a b : DT) : Bool :=
  a.year < b.year || (a.year = b.year &&
    (a.month < b.month || (a.month = b.month &&
      (a.day < b.day || (a.day = b.day &&
        (a.hour < b.hour || (a.hour = b.hour && a.minute < b.minute)))))))

/-- Non-strict companion of `dtLt`. -/
def dtLe (a b : DT) : Bool :=
  !dtLt b a

/-- Zeller's congruence for months `≥ 3` (all we need: March and October):
`0` is Saturday, `1` is Sunday. -/
def zeller (y m d : Nat) : Nat :=
  (d + (13 * (m + 1)) / 5 + y % 100 + (y % 100) / 4 + (y / 100) / 4 +
    5 * (y / 100)) % 7

/-- Day of month of the last Sunday of a 31-day month (March, October). -/
def lastSunday (y m : Nat) : Nat :=
  31 - (zeller y m 31 + 6) % 7

/-- EU summer time, `fold=0` convention: `+02:00` from the last Sunday of
March at 03:00 wall clock up to (excluding) the last Sunday of October at
03:00 wall clock. -/
def isCEST (dt : DT) : Bool :=
  let after : Bool :=
    3 < dt.month || (3 = dt.month &&
      (lastSunday dt.year 3 < dt.day ||
        (lastSunday dt.year 3 = dt.day && 3 ≤ dt.hour)))
  let before : Bool :=
    dt.month < 10 || (dt.month = 10 &&
      (dt.day < lastSunday dt.year 10 ||
        (dt.day = lastSunday dt.year 10 && dt.hour < 3)))
  after && before

/-- Zero-padded decimal rendering. -/
def padNum (width n : Nat) : List Char :=
  let s := (Nat.toDigits 10 n)
  List.replicate (width - s.length) '0' ++ s

/-- `dt.strftime("%Y-%m-%d")`. -/
def strftimeYMD (dt : DT) : String :=
  (padNum 4 dt.year ++ '-' :: padNum 2 dt.month ++ '-' :: padNum 2 dt.day).asString

/-- `dt.isoformat()` for the datetimes of this pipeline (seconds zero,
offset per `isCEST`). -/
def isoformat (dt : DT) : String :=
  (padNum 4 dt.year ++ '-' :: padNum 2 dt.month ++ '-' :: padNum 2 dt.day ++
    'T' :: padNum 2 dt.hour ++ ':' :: padNum 2 dt.minute ++ ":00".data ++
    (if isCEST dt then "+02:00".data else "+01:00".data)).asString

/-- `parse_date_from_line` (source lines 75-85): `.error` models the
`ValueError` raised by `datetime(...)` on an out-of-range day, `.ok none`
the `return None` branches. -/
def parse_date_from_line (line : String) (default_year : Nat) :
    Except Unit (Option DT) :=
  match dateSearchRuns (runsP isWordChar line.data) with
  | none => .ok none
  | some (g₁, g₂) =>
    let day := digitsVal g₁
    let month_name := lowerL g₂
    let month_key := month_name.take 3
    match (monthsGet month_key).orElse (fun _ => monthsGet month_name) with
    | none => .ok none
    | some month =>
      match mkDatetime default_year month day with
      | none => .error ()
      | some dt => .ok (some dt)

/-! ## Events and the `build_events` pipeline (source lines 99-164) -/

/-- An `ics` `Event` as used by the pipeline: `name`, `begin`, `end`,
`description`, `uid` (`end` is a Lean keyword, hence `endT`).  The library
default uid of a fresh `Event()` is irrelevant here — only the events that
survive deduplication get their `uid` assigned (source lines 158-160) — and
is modelled as `""`. -/
structure Event where
  name : String
  begin : DT
  endT : DT
  description : String
  uid : String
  deriving DecidableEq, Repr

/-- Title derivation (source lines 119-123): the title starts as the
matched line; if it has at most six characters and a next line exists, the
next line is appended after a space; the result is
`normalize_whitespace`d. -/
def titleAt (lines : List String) (i : Nat) (line : String) : String :=
  normalize_whitespace
    (if line.length ≤ 6 && i + 1 < lines.length then
      line ++ " " ++ lines.getD (i + 1) ""
    else line)

/-- Description derivation (source lines 126-129): the window of lines from
`max 0 (i-2)` to `min (length lines) (i+4)` (exclusive), joined with
`" | "`, whitespace-normalized. -/
def descAt (lines : List String) (i : Nat) : String :=
  let lo := i - 2
  let hi := min lines.length (i + 4)
  let window := (lines.drop lo).take (hi - lo)
  normalize_whitespace (String.intercalate " | " window)

/-- The candidate `Event` built at index `i` (source lines 116-138). -/
def mkCandidate (lines : List String) (i : Nat) (line : String) (cd : DT)
    (hh mm : Nat) : Event :=
  let start : DT := { cd with hour := hh, minute := mm }
  { name := titleAt lines i line
    begin := start
    endT := addMinutes start 60
    description := descAt lines i
    uid := "" }

/-- The extraction loop of `build_events` (source lines 103-138):
`for i, line in enumerate(lines)` walks the list while counting the index
(`all` is the whole list, consulted for the next line and the context
window), carrying the current-date cursor; a date match updates the cursor
and `continue`s; a time match under an established cursor emits a
candidate; `.error` propagates the `ValueError` of an out-of-range date. -/
def buildLoop (all : List String) (yg : Nat) :
    List String → Nat → Option DT → Except Unit (List Event)
  | [], _, _ => .ok []
  | line :: rest, i, cur =>
    match parse_date_from_line line yg with
    | .error e => .error e
    | .ok (some dt) => buildLoop all yg rest (i + 1) (some dt)
    | .ok none =>
      match parse_time_from_line line, cur with
      | some (hh, mm), some cd =>
        (buildLoop all yg rest (i + 1) cur).map
          (fun evs => mkCandidate all i line cd hh mm :: evs)
      | _, _ => buildLoop all yg rest (i + 1) cur

/-- The grouping key (source lines 144-146): the day formatted
`YYYY-MM-DD` and the canonicalized `f"{e.name} {e.description}"`
(`astimezone(TZ)` is the identity: every `begin` already carries `TZ`). -/
def keyOf (e : Event) : String × String :=
  (strftimeYMD e.begin,
    canonicalize_activity_text (e.name ++ " " ++ e.description))

/-- Lookup in the insertion-ordered dict `chosen`. -/
def dictGet : List ((String × String) × Event) → (String × String) →
    Option Event
  | [], _ => none
  | p :: rest, k => if p.1 = k then some p.2 else dictGet rest k

/-- `chosen[k] = v` on the insertion-ordered dict: update in place if the
key is present, else append (CPython dicts preserve insertion order and
update values in place). -/
def dictSet : List ((String × String) × Event) → (String × String) → Event →
    List ((String × String) × Event)
  | [], k, v => [(k, v)]
  | p :: rest, k, v =>
    if p.1 = k then (p.1, v) :: rest else p :: dictSet rest k v

/-- One iteration of the deduplication loop (source lines 143-154). -/
def dedupStep (m : List ((String × String) × Event)) (e : Event) :
    List ((String × String) × Event) :=
  match dictGet m (keyOf e) with
  | none => dictSet m (keyOf e) e
  | some existing =>
    if dtLt e.begin existing.begin then dictSet m (keyOf e) e else m

/-- The full deduplication fold over the provisional list. -/
def dedupe (provisional : List Event) : List ((String × String) × Event) :=
  provisional.foldl dedupStep []

/-- UID assignment for a surviving event (source lines 158-160), with the
process string-hash function passed in as `pyHash` (CPython's `hash` on
`str` is salted per process). -/
def assignUid (pyHash : String → Int) (e : Event) : Event :=
  let uid_key := isoformat e.begin ++ "|" ++ canonicalize_activity_text e.name
  { e with uid := toString (pyHash uid_key) ++ "@os-sverige-kalender" }

/-- Stable insertion into a list sorted by `begin`: since the inserted
event precedes the tail's events in the original list, it goes before the
first event whose `begin` is not strictly smaller. -/
def insertByBegin (e : Event) : List Event → List Event
  | [] => [e]
  | x :: xs =>
    if dtLe e.begin x.begin then e :: x :: xs else x :: insertByBegin e xs

/-- `final_events.sort(key=lambda x: x.begin)` (source line 163): Python's
sort is stable and ascending, and a stable ascending sort of a given list
is unique, so stable insertion sort computes the same list. -/
def sortByBegin : List Event → List Event
  | [] => []
  | e :: evs => insertByBegin e (sortByBegin evs)

/-- `year_guess` (source lines 100-101), from `datetime.now(TZ).year`. -/
def yearGuess (nowYear : Nat) : Nat :=
  if nowYear ≤ 2026 then 2026 else nowYear

/-- The pipeline tail after extraction (source lines 140-164):
deduplicate, take the surviving values, assign UIDs, sort. -/
def finishPipeline (pyHash : String → Int) (provisional : List Event) :
    List Event :=
  sortByBegin (((dedupe provisional).map (fun p => p.2)).map (assignUid pyHash))

/-- `build_events` (source lines 99-164).  `nowYear` is the wall-clock year
read at line 100 and `pyHash` the per-process string hash; an escaping
`ValueError` is `.error ()`. -/
def build_events (nowYear : Nat) (pyHash : String → Int)
    (lines : List String) : Except Unit (List Event) :=
  (buildLoop lines (yearGuess nowYear) lines 0 none).map
    (finishPipeline pyHash)

/-! ## Substring tests (Python `in` on strings) -/

/-- `hay.startswith(needle)` on character lists. -/
def startsWithL : List Char → List Char → Bool
  | [], _ => true
  | _ :: _, [] => false
  | a :: as, b :: bs => a = b && startsWithL as bs

/-- Python `needle in hay` on character lists. -/
def containsSub (n : List Char) : List Char → Bool
  | [] => n.isEmpty
  | c :: t => startsWithL n (c :: t) || containsSub n t

/-! ## The relevance filter (modelled from the spec)

`src/generate_ics.py` contains no relevance filter: the spec (§4.1 step 5,
§6, and the §9 note that the filter and the deduplication stage were
observed in different revisions of the system) describes it as an optional
stage between candidate emission and deduplication, absent from the current
source.  The two definitions below are therefore modelled from the spec's
words rather than translated from `src/`. -/

/-- Modelled from the spec: "discard the candidate unless the description
window contains at least one of a configured set of relevance markers
(case-insensitive substring match)"; "when empty/absent, the filter is
disabled and all candidates pass" (relevance filter of §4.1 step 5 and
`relevance_markers` of §6, both missing from `src/generate_ics.py`). -/
def relevancePass (markers : List String) (description : String) : Bool :=
  markers.isEmpty ||
    markers.any (fun m => containsSub (lowerL m.data) (lowerL description.data))

/-- Modelled from the spec: `build_events` with the optional relevance
filter of §4.1 step 5 enabled, discarding non-relevant candidates before
deduplication (the stage is missing from `src/generate_ics.py`). -/
def build_events_filtered (markers : List String) (nowYear : Nat)
    (pyHash : String → Int) (lines : List String) :
    Except Unit (List Event) :=
  (buildLoop lines (yearGuess nowYear) lines 0 none).map (fun provisional =>
    finishPipeline pyHash
      (provisional.filter (fun e => relevancePass markers e.description)))

/-! ## The selection fold, in isolation

`chooseStep` is the per-candidate effect of the deduplication loop on the
entry of one key (keep the first candidate, then replace exactly when the
newcomer's `begin` is strictly smaller); `foldMin` is the same fold with
the running value made total.  These mirror source lines 148-154 and are
related to the dict loop by `dictGet_foldl_dedupStep` below. -/

/-- The effect of one loop iteration on the entry of the candidate's own
key. -/
def chooseStep (acc : Option Event) (e : Event) : Option Event :=
  match acc with
  | none => some e
  | some existing =>
    if dtLt e.begin existing.begin then some e else some existing

/-- The selection fold with the first group member as seed: replace the
running representative exactly when the newcomer starts strictly
earlier. -/
def foldMin (c : Event) : List Event → Event
  | [] => c
  | x :: t => foldMin (if dtLt x.begin c.begin then x else c) t

/-! ## The chronological order -/

theorem dtLt_iff (a b : DT) : dtLt a b = true ↔
    (a.year < b.year ∨ (a.year = b.year ∧
      (a.month < b.month ∨ (a.month = b.month ∧
        (a.day < b.day ∨ (a.day = b.day ∧
          (a.hour < b.hour ∨ (a.hour = b.hour ∧ a.minute < b.minute)))))))) := by
  simp [dtLt]

theorem dtLt_asymm {a b : DT} (h : dtLt a b = true) (h' : dtLt b a = true) :
    False := by
  rw [dtLt_iff] at h h'
  omega

theorem dtLt_connex {a b : DT} (h : dtLt a b = false) (h' : dtLt b a = false) :
    a.year = b.year ∧ a.month = b.month ∧ a.day = b.day ∧ a.hour = b.hour ∧
      a.minute = b.minute := by
  have h₁ := Bool.eq_false_iff.mp h
  have h₂ := Bool.eq_false_iff.mp h'
  rw [Ne, dtLt_iff] at h₁ h₂
  omega

theorem dtLe_total (a b : DT) : (dtLe a b || dtLe b a) = true := by
  simp only [dtLe]
  cases hab : dtLt a b <;> cases hba : dtLt b a <;> simp_all
  exact dtLt_asymm hab hba

theorem dtLe_refl (a : DT) : dtLe a a = true := by
  simp only [dtLe, Bool.not_eq_true']
  cases h : dtLt a a
  · rfl
  · exact absurd h (by rw [dtLt_iff]; omega)

theorem dtLe_trans {a b c : DT} (h : dtLe a b = true) (h' : dtLe b c = true) :
    dtLe a c = true := by
  simp only [dtLe, Bool.not_eq_true'] at *
  cases hca : dtLt c a
  · rfl
  · exfalso
    rw [dtLt_iff] at hca
    have hb := Bool.eq_false_iff.mp h
    have hb' := Bool.eq_false_iff.mp h'
    rw [Ne, dtLt_iff] at hb hb'
    omega

theorem dtLe_of_not_le {a b : DT} (h : ¬ dtLe a b = true) : dtLe b a = true := by
  rcases Bool.or_eq_true_iff.mp (dtLe_total a b) with h' | h'
  · exact absurd h' h
  · exact h'

/-! ## The extraction loop: provenance of candidates -/

theorem buildLoop_mem {all : List String} {yg : Nat} :
    ∀ {suf : List String} {i : Nat} {cur : Option DT} {P : List Event},
      buildLoop all yg suf i cur = .ok P → ∀ e ∈ P,
        ∃ j line cd hh mm, e = mkCandidate all j line cd hh mm := by
  intro suf
  induction suf with
  | nil =>
    intro i cur P hP e he
    simp only [buildLoop] at hP
    cases hP
    cases he
  | cons line rest ih =>
    intro i cur P hP e he
    simp only [buildLoop] at hP
    cases hd : parse_date_from_line line yg with
    | error u => rw [hd] at hP; cases hP
    | ok od =>
      rw [hd] at hP
      cases od with
      | some dt => exact ih hP e he
      | none =>
        cases ht : parse_time_from_line line with
        | none => rw [ht] at hP; exact ih hP e he
        | some t =>
          rw [ht] at hP
          cases cur with
          | none => exact ih hP e he
          | some cd =>
            cases hB : buildLoop all yg rest (i + 1) (some cd) with
            | error u => rw [hB] at hP; cases hP
            | ok P' =>
              rw [hB] at hP
              cases hP
              rcases he with _ | ⟨_, he⟩
              · exact ⟨i, line, cd, t.1, t.2, rfl⟩
              · exact ih hB e he

/-! ## Deduplication: provenance of surviving values -/

theorem mem_dictSet {m : List ((String × String) × Event)}
    {k : String × String} {v : Event} {q : (String × String) × Event}
    (h : q ∈ dictSet m k v) : q ∈ m ∨ q.2 = v := by
  induction m with
  | nil =>
    simp only [dictSet] at h
    right
    rw [List.mem_singleton.mp h]
  | cons p rest ih =>
    simp only [dictSet] at h
    by_cases hk : p.1 = k
    · rw [if_pos hk] at h
      rcases List.mem_cons.mp h with h | h
      · right; rw [h]
      · left; exact List.mem_cons_of_mem _ h
    · rw [if_neg hk] at h
      rcases List.mem_cons.mp h with h | h
      · left; rw [h]; exact List.mem_cons_self _ _
      · rcases ih h with h | h
        · left; exact List.mem_cons_of_mem _ h
        · right; exact h

theorem mem_dedupStep {m : List ((String × String) × Event)} {e : Event}
    {q : (String × String) × Event} (h : q ∈ dedupStep m e) :
    q ∈ m ∨ q.2 = e := by
  unfold dedupStep at h
  cases hg : dictGet m (keyOf e) with
  | none => rw [hg] at h; exact mem_dictSet h
  | some ex =>
    rw [hg] at h
    dsimp only at h
    split at h
    · exact mem_dictSet h
    · exact Or.inl h

theorem mem_foldl_dedupStep {P : List Event} :
    ∀ {m : List ((String × String) × Event)} {q : (String × String) × Event},
      q ∈ P.foldl dedupStep m → q ∈ m ∨ ∃ e ∈ P, q.2 = e := by
  induction P with
  | nil => intro m q h; exact Or.inl h
  | cons e P' ih =>
    intro m q h
    rcases ih (m := dedupStep m e) h with h' | h'
    · rcases mem_dedupStep h' with h'' | h''
      · exact Or.inl h''
      · exact Or.inr ⟨e, List.mem_cons_self _ _, h''⟩
    · rcases h' with ⟨e', he', hq⟩
      exact Or.inr ⟨e', List.mem_cons_of_mem _ he', hq⟩

/-! ## The final sort -/

theorem insertByBegin_perm (e : Event) (l : List Event) :
    List.Perm (insertByBegin e l) (e :: l) := by
  induction l with
  | nil => exact List.Perm.refl _
  | cons x xs ih =>
    simp only [insertByBegin]
    by_cases h : dtLe e.begin x.begin = true
    · rw [if_pos h]
    · rw [if_neg h]
      exact ((ih.cons x).trans (List.Perm.swap e x xs))

theorem sortByBegin_perm (l : List Event) : List.Perm (sortByBegin l) l := by
  induction l with
  | nil => exact List.Perm.refl _
  | cons e l ih => exact (insertByBegin_perm e (sortByBegin l)).trans (ih.cons e)

theorem insertByBegin_sorted {e : Event} {l : List Event}
    (h : l.Pairwise (fun a b => dtLe a.begin b.begin = true)) :
    (insertByBegin e l).Pairwise (fun a b => dtLe a.begin b.begin = true) := by
  induction l with
  | nil => simp [insertByBegin]
  | cons x xs ih =>
    rcases List.pairwise_cons.mp h with ⟨hx, hxs⟩
    simp only [insertByBegin]
    by_cases hle : dtLe e.begin x.begin = true
    · rw [if_pos hle]
      refine List.pairwise_cons.mpr ⟨?_, h⟩
      intro b hb
      rcases List.mem_cons.mp hb with hb | hb
      · rw [hb]; exact hle
      · exact dtLe_trans hle (hx b hb)
    · rw [if_neg hle]
      refine List.pairwise_cons.mpr ⟨?_, ih hxs⟩
      intro b hb
      rcases List.mem_cons.mp ((insertByBegin_perm e xs).mem_iff.mp hb) with hb | hb
      · rw [hb]; exact dtLe_of_not_le hle
      · exact hx b hb

theorem sortByBegin_sorted (l : List Event) :
    (sortByBegin l).Pairwise (fun a b => dtLe a.begin b.begin = true) := by
  induction l with
  | nil => simp [sortByBegin]
  | cons e l ih => exact insertByBegin_sorted ih

/-! ## Destructuring a successful `build_events` run -/

theorem build_events_ok {nowYear : Nat} {pyHash : String → Int}
    {lines : List String} {F : List Event}
    (hF : build_events nowYear pyHash lines = .ok F) :
    ∃ P, buildLoop lines (yearGuess nowYear) lines 0 none = .ok P ∧
      F = finishPipeline pyHash P := by
  unfold build_events at hF
  cases hB : buildLoop lines (yearGuess nowYear) lines 0 none with
  | error u => rw [hB] at hF; cases hF
  | ok P =>
    rw [hB] at hF
    cases hF
    exact ⟨P, rfl, rfl⟩

/-- Membership after the pipeline tail comes from a provisional candidate,
up to UID assignment. -/
theorem mem_finishPipeline {pyHash : String → Int} {P : List Event}
    {e : Event} (he : e ∈ finishPipeline pyHash P) :
    ∃ c ∈ P, e = assignUid pyHash c := by
  unfold finishPipeline at he
  have he' := (sortByBegin_perm _).mem_iff.mp he
  rcases List.mem_map.mp he' with ⟨v, hv, hev⟩
  rcases List.mem_map.mp hv with ⟨q, hq, hqv⟩
  rcases mem_foldl_dedupStep hq with hq' | ⟨c, hc, hqc⟩
  · cases hq'
  · exact ⟨c, hc, by rw [← hev, ← hqv, hqc]⟩

/-- Membership in the final list comes from a provisional candidate, up to
UID assignment. -/
theorem mem_final {nowYear : Nat} {pyHash : String → Int}
    {lines : List String} {F : List Event} {e : Event}
    (hF : build_events nowYear pyHash lines = .ok F) (he : e ∈ F) :
    ∃ c, (∃ j line cd hh mm, c = mkCandidate lines j line cd hh mm) ∧
      e = assignUid pyHash c := by
  rcases build_events_ok hF with ⟨P, hP, hFeq⟩
  rw [hFeq] at he
  rcases mem_finishPipeline he with ⟨c, hc, hec⟩
  exact ⟨c, buildLoop_mem hP c hc, hec⟩

/-! ## C2: every final event lasts exactly 60 minutes -/

/-- **C2.** For every list of input lines (and any wall-clock year and any
process hash seed), every `FinalEvent` produced by a non-raising run of
`build_events` satisfies `end == start + 60 minutes` exactly. -/
theorem build_events_duration_60min (nowYear : Nat) (pyHash : String → Int)
    (lines : List String) (F : List Event)
    (hF : build_events nowYear pyHash lines = .ok F) :
    ∀ e ∈ F, e.endT = addMinutes e.begin 60 := by
  intro e he
  rcases mem_final hF he with ⟨c, ⟨j, line, cd, hh, mm, hc⟩, he'⟩
  rw [he', hc]
  rfl

/-- Witness for C2 at the concrete input of spec Example 1. -/
theorem build_events_duration_60min_witness :
    build_events 2026 (fun _ => 0)
        ["5 februari", "Skidskytte", "10:30 Herrar sprint"] =
      .ok [{ name := "10:30 Herrar sprint", begin := ⟨2026, 2, 5, 10, 30⟩,
             endT := ⟨2026, 2, 5, 11, 30⟩,
             description := "5 februari | Skidskytte | 10:30 Herrar sprint",
             uid := "0@os-sverige-kalender" }] ∧
    (⟨2026, 2, 5, 11, 30⟩ : DT) = addMinutes ⟨2026, 2, 5, 10, 30⟩ 60 := by
  have hrun : build_events 2026 (fun _ => 0)
      ["5 februari", "Skidskytte", "10:30 Herrar sprint"] =
    .ok [{ name := "10:30 Herrar sprint", begin := ⟨2026, 2, 5, 10, 30⟩,
           endT := ⟨2026, 2, 5, 11, 30⟩,
           description := "5 februari | Skidskytte | 10:30 Herrar sprint",
           uid := "0@os-sverige-kalender" }] := rfl
  refine ⟨hrun, ?_⟩
  exact build_events_duration_60min 2026 (fun _ => 0)
    ["5 februari", "Skidskytte", "10:30 Herrar sprint"] _ hrun
    _ (List.mem_cons_self _ _)

/-! ## C3: the final list is sorted by start -/

/-- **C3.** For every list of input lines, the `FinalEvent` list returned
by a non-raising run of `build_events` is sorted non-decreasingly by
`start`. -/
theorem build_events_sorted_by_start (nowYear : Nat) (pyHash : String → Int)
    (lines : List String) (F : List Event)
    (hF : build_events nowYear pyHash lines = .ok F) :
    F.Pairwise (fun a b => dtLe a.begin b.begin = true) := by
  rcases build_events_ok hF with ⟨P, hP, hFeq⟩
  rw [hFeq]
  exact sortByBegin_sorted _

/-- Witness for C3 on an input whose two candidates arrive out of order. -/
theorem build_events_sorted_by_start_witness :
    ∃ F, build_events 2026 (fun _ => 0)
        ["6 februari", "10:00 Beta", "5 februari", "09:00 Alfa"] = .ok F ∧
      F.Pairwise (fun a b => dtLe a.begin b.begin = true) := by
  refine ⟨_, rfl, build_events_sorted_by_start 2026 (fun _ => 0)
    ["6 februari", "10:00 Beta", "5 februari", "09:00 Alfa"] _ rfl⟩

/-! ## C4: no candidate before the first date heading -/

/-- As long as no line of the walked prefix matches the date pattern, the
loop neither emits a candidate nor establishes a cursor: the run from the
start equals the run from position `k`.  (By C10, the hypothesis
`parse_date_from_line line yg = .ok none` is exactly "`DATE_RE` does not
match `line`".) -/
theorem buildLoop_skip_front (all : List String) (yg : Nat) :
    ∀ (k : Nat) (suf : List String) (i : Nat),
      (∀ line ∈ suf.take k, parse_date_from_line line yg = .ok none) →
      buildLoop all yg suf i none = buildLoop all yg (suf.drop k) (i + k) none := by
  intro k
  induction k with
  | zero => intro suf i h; simp
  | succ k ih =>
    intro suf i h
    cases suf with
    | nil => simp [buildLoop]
    | cons line rest =>
      have hline : parse_date_from_line line yg = .ok none :=
        h line (by simp)
      have hrest : ∀ l ∈ rest.take k, parse_date_from_line l yg = .ok none := by
        intro l hl
        refine h l ?_
        simp only [List.take_succ_cons, List.mem_cons]
        exact Or.inr hl
      have hstep : buildLoop all yg (line :: rest) i none =
          buildLoop all yg rest (i + 1) none := by
        simp only [buildLoop, hline]
        cases ht : parse_time_from_line line with
        | none => rfl
        | some t => rfl
      rw [hstep, ih rest (i + 1) hrest]
      have harith : i + 1 + k = i + (k + 1) := by omega
      rw [harith]
      rfl

/-- **C4.** A line matching the time pattern produces no `CandidateEvent`
unless some strictly earlier line matched the date pattern: if none of the
first `k` lines matches `DATE_RE`, the whole run coincides with the run
that starts at position `k` with the date cursor still unestablished — in
particular the first `k` lines (time-matching or not) contribute no
candidate.  (A line at position `k` that itself matches the date pattern
only updates the cursor and `continue`s, so it emits nothing either.) -/
theorem no_candidates_before_first_date (lines : List String) (yg k : Nat)
    (h : ∀ line ∈ lines.take k, parse_date_from_line line yg = .ok none) :
    buildLoop lines yg lines 0 none =
      buildLoop lines yg (lines.drop k) k none := by
  have h' := buildLoop_skip_front lines yg k lines 0 h
  simpa using h'

/-- Witness for C4: spec Example 3 (`["09:00 Info"]` yields zero events)
and the empty input (empty result, no error). -/
theorem no_candidates_before_first_date_witness :
    buildLoop ["09:00 Info"] 2026 ["09:00 Info"] 0 none =
      buildLoop ["09:00 Info"] 2026 [] 1 none ∧
    build_events 2026 (fun _ => 0) ["09:00 Info"] = .ok [] ∧
    build_events 2026 (fun _ => 0) [] = .ok [] := by
  refine ⟨?_, rfl, rfl⟩
  have h := no_candidates_before_first_date ["09:00 Info"] 2026 1
    (by
      intro line hl
      have hline : line = "09:00 Info" := by simpa using hl
      rw [hline]
      rfl)
  simpa using h

/-! ## C7: spec Example 1, and `default_year` -/

/-- `mkDatetime` succeeds on day 5 of month 2 for any plausible year. -/
theorem mkDatetime_feb5 (y : Nat) (h₁ : 1 ≤ y) (h₂ : y ≤ 9999) :
    mkDatetime y 2 5 = some ⟨y, 2, 5, 0, 0⟩ := by
  have hd : 5 ≤ daysInMonth y 2 := by
    unfold daysInMonth
    cases h : isLeap y <;> simp [h]
  unfold mkDatetime
  rw [if_pos]
  simp only [Bool.and_eq_true, decide_eq_true_eq]
  exact ⟨⟨⟨⟨⟨h₁, h₂⟩, by omega⟩, by omega⟩, by omega⟩, hd⟩

/-- **C7.** (Spec Example 1.)  On
`["5 februari", "Skidskytte", "10:30 Herrar sprint"]` with the year 2026
the pipeline yields exactly one final event, starting 2026-02-05 10:30 in
the fixed timezone, whose title contains `"10:30 Herrar sprint"` —
whatever the process hash seed; and `default_year` (the second argument of
`parse_date_from_line`) supplies the year of a date line that carries
none: `"5 februari"` parses to the 5th of February of `default_year`. -/
theorem example1_pipeline (pyHash : String → Int) (y : Nat)
    (h₁ : 1 ≤ y) (h₂ : y ≤ 9999) :
    (∃ e, build_events 2026 pyHash
        ["5 februari", "Skidskytte", "10:30 Herrar sprint"] = .ok [e] ∧
      e.begin = ⟨2026, 2, 5, 10, 30⟩ ∧
      containsSub "10:30 Herrar sprint".data e.name.data = true) ∧
    parse_date_from_line "5 februari" y = .ok (some ⟨y, 2, 5, 0, 0⟩) := by
  constructor
  · refine ⟨assignUid pyHash
      { name := "10:30 Herrar sprint", begin := ⟨2026, 2, 5, 10, 30⟩,
        endT := ⟨2026, 2, 5, 11, 30⟩,
        description := "5 februari | Skidskytte | 10:30 Herrar sprint",
        uid := "" }, rfl, rfl, rfl⟩
  · show (match dateSearchRuns (runsP isWordChar "5 februari".data) with
      | none => (.ok none : Except Unit (Option DT))
      | some (g₁, g₂) => _) = _
    have hsearch : dateSearchRuns (runsP isWordChar "5 februari".data) =
        some (['5'], "februari".data) := rfl
    rw [hsearch]
    show (match mkDatetime y 2 5 with
      | none => (.error () : Except Unit (Option DT))
      | some dt => .ok (some dt)) = _
    rw [mkDatetime_feb5 y h₁ h₂]

/-- Witness for C7 at `y = 2026` and the zero hash seed. -/
theorem example1_pipeline_witness :
    (∃ e, build_events 2026 (fun _ => 0)
        ["5 februari", "Skidskytte", "10:30 Herrar sprint"] = .ok [e] ∧
      e.begin = ⟨2026, 2, 5, 10, 30⟩ ∧
      containsSub "10:30 Herrar sprint".data e.name.data = true) ∧
    parse_date_from_line "5 februari" 2026 = .ok (some ⟨2026, 2, 5, 0, 0⟩) :=
  example1_pipeline (fun _ => 0) 2026 (by decide) (by decide)

/-! ## C6: the UID is built from the per-process hash seed (code bug)

The source comments line 156 with "Stabil UID" and the spec requires a
digest that is deterministic across runs, but the UID is
`str(hash(uid_key))` and CPython salts `hash` on `str` per process: two
runs with different `PYTHONHASHSEED` produce different identifiers for the
same input.  With the process hash function made explicit, two choices of
it yield final events identical in every field except `uid`. -/

/-- **C6** (refuting the determinism of the identifier): on the same input
lines, two process hash functions give the same single final event except
for its `uid`. -/
theorem uid_depends_on_hash_seed :
    ∃ e₁ e₂, build_events 2026 (fun _ => 0)
        ["5 februari", "10:30 Herrar sprint"] = .ok [e₁] ∧
      build_events 2026 (fun _ => 1)
        ["5 februari", "10:30 Herrar sprint"] = .ok [e₂] ∧
      e₁.name = e₂.name ∧ e₁.begin = e₂.begin ∧ e₁.endT = e₂.endT ∧
      e₁.description = e₂.description ∧ e₁.uid ≠ e₂.uid := by
  refine ⟨_, _, rfl, rfl, rfl, rfl, rfl, rfl, ?_⟩
  show ("0@os-sverige-kalender" : String) ≠ "1@os-sverige-kalender"
  decide

/-! ## C10: the month lookup never fails after a regex match -/

/-- A successful `DATE_RE` search returns a month token from the
alternation's vocabulary (and a 1-2 digit day group). -/
theorem dateSearchRuns_some :
    ∀ (rs : List (List Char)) (g₁ g₂ : List Char),
      dateSearchRuns rs = some (g₁, g₂) →
      isNum12 g₁ = true ∧ monthTokens.contains (lowerL g₂) = true := by
  intro rs
  induction rs using dateSearchRuns.induct with
  | case1 w₁ sep w₂ rest htr =>
    intro g₁ g₂ h
    simp only [dateSearchRuns, if_pos htr] at h
    cases h
    rcases Bool.and_eq_true_iff.mp htr with ⟨h₁, h₂⟩
    rcases Bool.and_eq_true_iff.mp h₁ with ⟨h₃, _⟩
    exact ⟨h₃, h₂⟩
  | case2 w₁ sep w₂ rest htr ih =>
    intro g₁ g₂ h
    simp only [dateSearchRuns, if_neg htr] at h
    exact ih g₁ g₂ h
  | case3 rs h =>
    intro g₁ g₂ hcontra
    rw [dateSearchRuns] at hcontra
    · cases hcontra
    · exact h

/-- Every month token's three-character prefix is a key of `MONTHS`. -/
theorem monthTokens_lookup :
    ∀ t ∈ monthTokens, (monthsGet (t.take 3)).isSome = true := by
  decide

/-- **C10.** Whenever `DATE_RE` matches, the `MONTHS` lookup by the first
three lowercased characters of the month token succeeds; consequently
`parse_date_from_line` returns `None` exactly when the regex does not
match, and the `return None` fallback after a successful match
(unrecognized month) is unreachable. -/
theorem month_lookup_total (line : String) (yg : Nat) :
    ((parse_date_from_line line yg = .ok none) ↔
      dateSearchRuns (runsP isWordChar line.data) = none) ∧
    (∀ g₁ g₂, dateSearchRuns (runsP isWordChar line.data) = some (g₁, g₂) →
      ∃ m, monthsGet ((lowerL g₂).take 3) = some m) := by
  have hmem : ∀ g₁ g₂,
      dateSearchRuns (runsP isWordChar line.data) = some (g₁, g₂) →
      ∃ m, monthsGet ((lowerL g₂).take 3) = some m := by
    intro g₁ g₂ h
    have h' := (dateSearchRuns_some _ g₁ g₂ h).2
    exact Option.isSome_iff_exists.mp
      (monthTokens_lookup (lowerL g₂) (List.elem_iff.mp h'))
  refine ⟨⟨?_, ?_⟩, hmem⟩
  · intro h
    cases hs : dateSearchRuns (runsP isWordChar line.data) with
    | none => rfl
    | some g =>
      exfalso
      rcases hmem g.1 g.2 (by rw [hs]) with ⟨m, hm⟩
      unfold parse_date_from_line at h
      rw [hs] at h
      dsimp only at h
      rw [hm] at h
      dsimp only [Option.orElse] at h
      cases hmk : mkDatetime yg m (digitsVal g.1) with
      | none => rw [hmk] at h; cases h
      | some dt => rw [hmk] at h; cases h
  · intro h
    unfold parse_date_from_line
    rw [h]

/-- Witness for C10: a line without a date and spec Example 1's date
line. -/
theorem month_lookup_total_witness :
    parse_date_from_line "Skidskytte" 2026 = .ok none ∧
    ∃ m, monthsGet ((lowerL "februari".data).take 3) = some m :=
  ⟨(month_lookup_total "Skidskytte" 2026).1.mpr rfl,
    (month_lookup_total "5 februari" 2026).2 ['5'] "februari".data rfl⟩

/-! ## C5: the relevance filter (spec-modelled) -/

/-- **C5.** With the spec-modelled relevance filter: every event surviving
a run with a non-empty marker set has a description window containing some
marker (case-insensitively) — so a candidate whose window mentions no
marker is discarded; with an empty marker set the filter is disabled and
the pipeline coincides with `build_events`; and with
`relevance_markers = {"Sverige"}` a candidate whose window never mentions
"Sverige" yields zero final events. -/
theorem relevance_filter_spec :
    (∀ markers nowYear pyHash lines F,
      build_events_filtered markers nowYear pyHash lines = .ok F →
      ∀ e ∈ F, relevancePass markers e.description = true) ∧
    (∀ nowYear pyHash lines,
      build_events_filtered [] nowYear pyHash lines =
        build_events nowYear pyHash lines) ∧
    build_events_filtered ["Sverige"] 2026 (fun _ => 0)
      ["5 februari", "10:30 Herrar sprint"] = .ok [] := by
  refine ⟨?_, ?_, rfl⟩
  · intro markers nowYear pyHash lines F hF e he
    unfold build_events_filtered at hF
    cases hB : buildLoop lines (yearGuess nowYear) lines 0 none with
    | error u => rw [hB] at hF; cases hF
    | ok P =>
      rw [hB] at hF
      cases hF
      rcases mem_finishPipeline he with ⟨c, hc, hec⟩
      have hcf := (List.mem_filter.mp hc).2
      rw [hec]
      exact hcf
  · intro nowYear pyHash lines
    unfold build_events_filtered build_events
    have hfun : (fun provisional : List Event => finishPipeline pyHash
        (provisional.filter (fun e => relevancePass [] e.description))) =
        finishPipeline pyHash := by
      funext P
      have h : (fun e : Event => relevancePass [] e.description) =
          fun _ => true := rfl
      rw [h, List.filter_true]
    rw [hfun]

/-- Witness for C5: a window that does mention "Sverige" passes the
filter, and the empty marker set disables it. -/
theorem relevance_filter_spec_witness :
    relevancePass ["Sverige"] "5 februari | 10:30 Sverige mot Finland" = true ∧
    build_events_filtered [] 2026 (fun _ => 0) ["5 februari", "09:00 Info"] =
      build_events 2026 (fun _ => 0) ["5 februari", "09:00 Info"] := by
  constructor
  · have hrun : build_events_filtered ["Sverige"] 2026 (fun _ => 0)
        ["5 februari", "10:30 Sverige mot Finland"] =
      .ok [{ name := "10:30 Sverige mot Finland",
             begin := ⟨2026, 2, 5, 10, 30⟩, endT := ⟨2026, 2, 5, 11, 30⟩,
             description := "5 februari | 10:30 Sverige mot Finland",
             uid := "0@os-sverige-kalender" }] := rfl
    exact relevance_filter_spec.1 ["Sverige"] 2026 (fun _ => 0)
      ["5 februari", "10:30 Sverige mot Finland"] _ hrun _
      (List.mem_cons_self _ _)
  · exact relevance_filter_spec.2.1 2026 (fun _ => 0) _

/-! ## C1: the deduplication law

The plan: relate the dict fold of source lines 143-154 to the
per-key selection fold (`dictGet_foldl_dedupStep`), characterize that fold
as "the first group member of minimal `begin`" (`foldMin_spec`), and carry
the unique surviving entry through UID assignment and the final sort. -/

theorem dtLt_irrefl (a : DT) : dtLt a a = false := by
  rw [Bool.eq_false_iff, Ne, dtLt_iff]
  omega

theorem dtLt_false_of_lt {a b : DT} (h : dtLt a b = true) :
    dtLt b a = false := by
  rw [dtLt_iff] at h
  rw [Bool.eq_false_iff, Ne, dtLt_iff]
  omega

theorem dtLt_of_not_lt_of_lt {a b c : DT} (h : dtLt b a = false)
    (h' : dtLt b c = true) : dtLt a c = true := by
  rw [Bool.eq_false_iff, Ne, dtLt_iff] at h
  rw [dtLt_iff] at h' ⊢
  omega

theorem dtLt_of_lt_of_not_lt {a b c : DT} (h : dtLt a b = true)
    (h' : dtLt c b = false) : dtLt a c = true := by
  rw [Bool.eq_false_iff, Ne, dtLt_iff] at h'
  rw [dtLt_iff] at h ⊢
  omega

theorem dtLt_false_of_lt_of_not_lt {a b c : DT} (h : dtLt a b = true)
    (h' : dtLt a c = false) : dtLt b c = false := by
  rw [Bool.eq_false_iff, Ne, dtLt_iff] at h'
  rw [dtLt_iff] at h
  rw [Bool.eq_false_iff, Ne, dtLt_iff]
  omega

/-! ### The dict operations -/

theorem dictGet_dictSet (m : List ((String × String) × Event))
    (k : String × String) (v : Event) (k' : String × String) :
    dictGet (dictSet m k v) k' = if k' = k then some v else dictGet m k' := by
  induction m with
  | nil =>
    simp only [dictSet, dictGet]
    by_cases h : k' = k
    · rw [if_pos h, if_pos h.symm]
    · rw [if_neg h, if_neg (fun hh => h hh.symm)]
  | cons p rest ih =>
    simp only [dictSet]
    by_cases h₀ : p.1 = k
    · simp only [if_pos h₀, dictGet]
      by_cases h' : k' = k
      · rw [if_pos (h₀.trans h'.symm), if_pos h']
      · have hpk' : ¬ p.1 = k' := fun hh => h' (hh.symm.trans h₀)
        rw [if_neg hpk', if_neg h', if_neg hpk']
    · simp only [if_neg h₀, dictGet]
      by_cases h₁ : p.1 = k'
      · rw [if_pos h₁, if_neg (fun hh : k' = k => h₀ (h₁.trans hh)), if_pos h₁]
      · rw [if_neg h₁, ih, if_neg h₁]

/-- Strengthening of `mem_dictSet`: a member of the updated dict is an old
entry or the binding `(k, v)` itself. -/
theorem mem_dictSet_eq {m : List ((String × String) × Event)}
    {k : String × String} {v : Event} {q : (String × String) × Event}
    (h : q ∈ dictSet m k v) : q ∈ m ∨ q = (k, v) := by
  induction m with
  | nil =>
    simp only [dictSet] at h
    right
    exact List.mem_singleton.mp h
  | cons p rest ih =>
    simp only [dictSet] at h
    by_cases hk : p.1 = k
    · rw [if_pos hk] at h
      rcases List.mem_cons.mp h with h | h
      · right; rw [h, hk]
      · left; exact List.mem_cons_of_mem _ h
    · rw [if_neg hk] at h
      rcases List.mem_cons.mp h with h | h
      · left; rw [h]; exact List.mem_cons_self _ _
      · rcases ih h with h | h
        · left; exact List.mem_cons_of_mem _ h
        · right; exact h

/-- Keys of the updated dict: unchanged when the key was present, the key
appended when it was absent. -/
theorem keys_dictSet (m : List ((String × String) × Event))
    (k : String × String) (v : Event) :
    (dictGet m k = none →
      (dictSet m k v).map (fun p => p.1) = m.map (fun p => p.1) ++ [k]) ∧
    (∀ ex, dictGet m k = some ex →
      (dictSet m k v).map (fun p => p.1) = m.map (fun p => p.1)) := by
  induction m with
  | nil =>
    refine ⟨fun _ => rfl, fun ex hex => ?_⟩
    simp only [dictGet] at hex
    cases hex
  | cons p rest ih =>
    by_cases hk : p.1 = k
    · refine ⟨fun hnone => ?_, fun ex hex => ?_⟩
      · simp only [dictGet, if_pos hk] at hnone
        cases hnone
      · simp only [dictSet, if_pos hk, List.map_cons]
    · refine ⟨fun hnone => ?_, fun ex hex => ?_⟩
      · simp only [dictGet, if_neg hk] at hnone
        simp only [dictSet, if_neg hk, List.map_cons, ih.1 hnone,
          List.cons_append]
      · simp only [dictGet, if_neg hk] at hex
        simp only [dictSet, if_neg hk, List.map_cons, ih.2 ex hex]

/-- A key on which `dictGet` fails is not among the stored keys. -/
theorem not_mem_keys_of_dictGet_none {m : List ((String × String) × Event)}
    {k : String × String} (h : dictGet m k = none) :
    k ∉ m.map (fun p => p.1) := by
  induction m with
  | nil => simp
  | cons p rest ih =>
    simp only [dictGet] at h
    by_cases hk : p.1 = k
    · rw [if_pos hk] at h; cases h
    · rw [if_neg hk] at h
      simp only [List.map_cons, List.mem_cons]
      rintro (hh | hh)
      · exact hk hh.symm
      · exact ih h hh

/-! ### Invariants of the deduplication fold -/

/-- Key consistency: every stored binding maps a key to an event whose own
key is that key. -/
theorem dedupStep_inv {m : List ((String × String) × Event)} {e : Event}
    (hinv : ∀ p ∈ m, keyOf p.2 = p.1) :
    ∀ p ∈ dedupStep m e, keyOf p.2 = p.1 := by
  intro p hp
  unfold dedupStep at hp
  have hset : p ∈ dictSet m (keyOf e) e → keyOf p.2 = p.1 := by
    intro hmem
    rcases mem_dictSet_eq hmem with h | h
    · exact hinv p h
    · rw [h]
  cases hg : dictGet m (keyOf e) with
  | none =>
    rw [hg] at hp
    exact hset hp
  | some ex =>
    rw [hg] at hp
    dsimp only at hp
    split at hp
    · exact hset hp
    · exact hinv p hp

theorem foldl_dedupStep_inv (P : List Event) :
    ∀ (m : List ((String × String) × Event)),
      (∀ p ∈ m, keyOf p.2 = p.1) →
      ∀ p ∈ P.foldl dedupStep m, keyOf p.2 = p.1 := by
  induction P with
  | nil => intro m hinv; exact hinv
  | cons e P' ih => intro m hinv; exact ih _ (dedupStep_inv hinv)

/-- The stored keys stay pairwise distinct. -/
theorem dedupStep_nodup {m : List ((String × String) × Event)} {e : Event}
    (hnd : (m.map (fun p => p.1)).Nodup) :
    ((dedupStep m e).map (fun p => p.1)).Nodup := by
  unfold dedupStep
  cases hg : dictGet m (keyOf e) with
  | none =>
    rw [(keys_dictSet m (keyOf e) e).1 hg]
    rw [List.nodup_append]
    exact ⟨hnd, List.nodup_singleton _,
      by simpa using not_mem_keys_of_dictGet_none hg⟩
  | some ex =>
    dsimp only
    split
    · rw [(keys_dictSet m (keyOf e) e).2 ex hg]; exact hnd
    · exact hnd

theorem foldl_dedupStep_nodup (P : List Event) :
    ∀ (m : List ((String × String) × Event)),
      (m.map (fun p => p.1)).Nodup →
      ((P.foldl dedupStep m).map (fun p => p.1)).Nodup := by
  induction P with
  | nil => intro m hnd; exact hnd
  | cons e P' ih => intro m hnd; exact ih _ (dedupStep_nodup hnd)

/-! ### The dict loop computes the per-key selection fold -/

theorem dictGet_dedupStep (m : List ((String × String) × Event)) (e : Event)
    (k : String × String) :
    dictGet (dedupStep m e) k =
      if keyOf e = k then chooseStep (dictGet m k) e else dictGet m k := by
  unfold dedupStep
  cases hg : dictGet m (keyOf e) with
  | none =>
    rw [dictGet_dictSet]
    by_cases hk : keyOf e = k
    · rw [if_pos hk.symm, if_pos hk, ← hk, hg]
      rfl
    · rw [if_neg (fun hh => hk hh.symm), if_neg hk]
  | some ex =>
    dsimp only
    by_cases hlt : dtLt e.begin ex.begin = true
    · rw [if_pos hlt, dictGet_dictSet]
      by_cases hk : keyOf e = k
      · rw [if_pos hk.symm, if_pos hk, ← hk, hg]
        simp only [chooseStep, if_pos hlt]
      · rw [if_neg (fun hh => hk hh.symm), if_neg hk]
    · rw [if_neg hlt]
      by_cases hk : keyOf e = k
      · rw [if_pos hk, ← hk, hg]
        simp only [chooseStep, if_neg hlt]
      · rw [if_neg hk]

theorem dictGet_foldl_dedupStep (P : List Event) :
    ∀ (m : List ((String × String) × Event)) (k : String × String),
      dictGet (P.foldl dedupStep m) k =
        (P.filter (fun e => keyOf e = k)).foldl chooseStep (dictGet m k) := by
  induction P with
  | nil => intro m k; rfl
  | cons e P' ih =>
    intro m k
    show dictGet (P'.foldl dedupStep (dedupStep m e)) k = _
    rw [ih (dedupStep m e) k, dictGet_dedupStep]
    by_cases hk : keyOf e = k
    · rw [if_pos hk, List.filter_cons_of_pos (by simpa using hk),
        List.foldl_cons]
    · rw [if_neg hk, List.filter_cons_of_neg (by simpa using hk)]

theorem foldl_chooseStep_some (t : List Event) :
    ∀ c, t.foldl chooseStep (some c) = some (foldMin c t) := by
  induction t with
  | nil => intro c; rfl
  | cons x t' ih =>
    intro c
    rw [List.foldl_cons]
    have hstep : chooseStep (some c) x =
        some (if dtLt x.begin c.begin then x else c) := by
      by_cases h : dtLt x.begin c.begin = true
      · simp only [chooseStep, if_pos h]
      · simp only [chooseStep, if_neg h]
    rw [hstep, ih]
    rfl

/-! ### `foldMin` picks the first group member of minimal `begin` -/

theorem foldMin_spec (t : List Event) :
    ∀ e, ∃ pre post, e :: t = pre ++ foldMin e t :: post ∧
      (∀ d ∈ e :: t, dtLt d.begin (foldMin e t).begin = false) ∧
      (∀ d ∈ pre, dtLt (foldMin e t).begin d.begin = true) := by
  induction t with
  | nil =>
    intro e
    refine ⟨[], [], rfl, ?_, by intro d hd; cases hd⟩
    intro d hd
    rw [List.mem_singleton.mp hd]
    exact dtLt_irrefl _
  | cons x t' ih =>
    intro e
    by_cases hxe : dtLt x.begin e.begin = true
    · have hfold : foldMin e (x :: t') = foldMin x t' := by
        show foldMin (if dtLt x.begin e.begin then x else e) t' = _
        rw [if_pos hxe]
      rw [hfold]
      rcases ih x with ⟨pre', post', hdec, hmin, hstrict⟩
      have hxm : dtLt x.begin (foldMin x t').begin = false :=
        hmin x (List.mem_cons_self _ _)
      refine ⟨e :: pre', post', ?_, ?_, ?_⟩
      · rw [List.cons_append, ← hdec]
      · intro d hd
        rcases List.mem_cons.mp hd with hde | hd'
        · rw [hde]
          exact dtLt_false_of_lt_of_not_lt hxe hxm
        · exact hmin d hd'
      · intro d hd
        rcases List.mem_cons.mp hd with hde | hd'
        · rw [hde]
          exact dtLt_of_not_lt_of_lt hxm hxe
        · exact hstrict d hd'
    · have hxe' : dtLt x.begin e.begin = false := Bool.eq_false_iff.mpr hxe
      have hfold : foldMin e (x :: t') = foldMin e t' := by
        show foldMin (if dtLt x.begin e.begin then x else e) t' = _
        rw [if_neg hxe]
      rw [hfold]
      rcases ih e with ⟨pre', post', hdec, hmin, hstrict⟩
      cases pre' with
      | nil =>
        rw [List.nil_append] at hdec
        have hme : e = foldMin e t' := (List.cons.injEq _ _ _ _ ▸ hdec).1
        refine ⟨[], x :: post', ?_, ?_, by intro d hd; cases hd⟩
        · rw [List.nil_append]
          have ht' : t' = post' := (List.cons.injEq _ _ _ _ ▸ hdec).2
          rw [← hme, ← ht']
        · intro d hd
          rcases List.mem_cons.mp hd with hde | hd'
          · rw [hde]
            exact hmin e (List.mem_cons_self _ _)
          · rcases List.mem_cons.mp hd' with hdx | hd''
            · rw [hdx, ← hme]
              exact hxe'
            · exact hmin d (List.mem_cons_of_mem _ hd'')
      | cons p pre'' =>
        rw [List.cons_append] at hdec
        have hpe : e = p := (List.cons.injEq _ _ _ _ ▸ hdec).1
        have ht' : t' = pre'' ++ foldMin e t' :: post' :=
          (List.cons.injEq _ _ _ _ ▸ hdec).2
        have hme : dtLt (foldMin e t').begin e.begin = true := by
          have := hstrict p (List.mem_cons_self _ _)
          rw [← hpe] at this
          exact this
        have hmx : dtLt (foldMin e t').begin x.begin = true :=
          dtLt_of_lt_of_not_lt hme hxe'
        refine ⟨e :: x :: pre'', post', ?_, ?_, ?_⟩
        · rw [List.cons_append, List.cons_append, ← ht']
        · intro d hd
          rcases List.mem_cons.mp hd with hde | hd'
          · rw [hde]
            exact hmin e (List.mem_cons_self _ _)
          · rcases List.mem_cons.mp hd' with hdx | hd''
            · rw [hdx]
              exact dtLt_false_of_lt hmx
            · exact hmin d (List.mem_cons_of_mem _ hd'')
        · intro d hd
          rcases List.mem_cons.mp hd with hde | hd'
          · rw [hde]; exact hme
          · rcases List.mem_cons.mp hd' with hdx | hd''
            · rw [hdx]; exact hmx
            · exact hstrict d (List.mem_cons_of_mem _ hd'')

/-! ### From the dict to the final list -/

/-- With consistent keys and no duplicate key, filtering the dict's values
by a key yields the entry that `dictGet` finds (or nothing). -/
theorem values_filter (m : List ((String × String) × Event))
    (k : String × String) (hinv : ∀ p ∈ m, keyOf p.2 = p.1)
    (hnd : (m.map (fun p => p.1)).Nodup) :
    (m.map (fun p => p.2)).filter (fun v => keyOf v = k) =
      match dictGet m k with
      | some v => [v]
      | none => [] := by
  induction m with
  | nil => rfl
  | cons p rest ih =>
    have hkey : keyOf p.2 = p.1 := hinv p (List.mem_cons_self _ _)
    have hinv' : ∀ q ∈ rest, keyOf q.2 = q.1 :=
      fun q hq => hinv q (List.mem_cons_of_mem _ hq)
    rw [List.map_cons] at hnd
    rcases List.nodup_cons.mp hnd with ⟨hp, hnd'⟩
    simp only [List.map_cons, dictGet]
    by_cases hk : p.1 = k
    · rw [List.filter_cons_of_pos (by simp [hkey, hk]), if_pos hk]
      have hrest : (rest.map (fun q => q.2)).filter (fun v => keyOf v = k) =
          [] := by
        rw [List.filter_eq_nil_iff]
        intro v hv
        rcases List.mem_map.mp hv with ⟨q, hq, hqv⟩
        simp only [decide_eq_true_eq]
        intro hkv
        apply hp
        have hq1 : q.1 = p.1 := by
          rw [← hinv' q hq, hqv, hkv, hk]
        rw [← hq1]
        exact List.mem_map.mpr ⟨q, hq, rfl⟩
      rw [hrest]
    · rw [List.filter_cons_of_neg (by simp [hkey, hk]), if_neg hk]
      exact ih hinv' hnd'

/-- **C1.** Fix a grouping key `k`.  If some provisional candidate carries
key `k`, then the final list contains exactly one event with key `k`,
namely (up to UID assignment) the first candidate of minimal `begin` in
the group: writing the group as `pre ++ c :: post`, no group member starts
strictly before `c`, every group member before `c` starts strictly after
it (so equal starts keep the earlier candidate), and the final events with
key `k` are exactly `[assignUid pyHash c]`. -/
theorem build_events_dedup_law (nowYear : Nat) (pyHash : String → Int)
    (lines : List String) (P F : List Event) (k : String × String)
    (hP : buildLoop lines (yearGuess nowYear) lines 0 none = .ok P)
    (hF : build_events nowYear pyHash lines = .ok F)
    (hk : P.filter (fun c => keyOf c = k) ≠ []) :
    ∃ c pre post,
      P.filter (fun c => keyOf c = k) = pre ++ c :: post ∧
      (∀ d ∈ P.filter (fun c => keyOf c = k), dtLt d.begin c.begin = false) ∧
      (∀ d ∈ pre, dtLt c.begin d.begin = true) ∧
      F.filter (fun f => keyOf f = k) = [assignUid pyHash c] := by
  rcases build_events_ok hF with ⟨P', hP', hFeq⟩
  rw [hP] at hP'
  have hPP : P = P' := by cases hP'; rfl
  rw [← hPP] at hFeq
  cases hflt : P.filter (fun c => keyOf c = k) with
  | nil => exact absurd hflt hk
  | cons e t =>
    have hget : dictGet (dedupe P) k = some (foldMin e t) := by
      unfold dedupe
      rw [dictGet_foldl_dedupStep P [] k]
      show (P.filter (fun c => keyOf c = k)).foldl chooseStep none = _
      rw [hflt, List.foldl_cons]
      show List.foldl chooseStep (some e) t = _
      exact foldl_chooseStep_some t e
    rcases foldMin_spec t e with ⟨pre, post, hdec, hmin, hstrict⟩
    refine ⟨foldMin e t, pre, post, hdec, hmin, hstrict, ?_⟩
    · rw [hFeq]
      unfold finishPipeline
      have hval : ((dedupe P).map (fun p => p.2)).filter
          (fun v => keyOf v = k) = [foldMin e t] := by
        rw [values_filter (dedupe P) k
          (foldl_dedupStep_inv P [] (by intro p hp; cases hp))
          (foldl_dedupStep_nodup P [] (by simp)), hget]
      have hmap : ((((dedupe P).map (fun p => p.2)).map
          (assignUid pyHash)).filter (fun f => keyOf f = k)) =
          [assignUid pyHash (foldMin e t)] := by
        rw [List.filter_map]
        have hpred : ((fun f => decide (keyOf f = k)) ∘ assignUid pyHash) =
            (fun v => decide (keyOf v = k)) := rfl
        rw [hpred, hval]
        rfl
      have hperm := (sortByBegin_perm (((dedupe P).map (fun p => p.2)).map
        (assignUid pyHash))).filter (fun f => decide (keyOf f = k))
      rw [hmap] at hperm
      exact List.perm_singleton.mp hperm

/-- Witness for C1: spec Example 2 — the same line twice under one date
collapses to a single final event. -/
theorem build_events_dedup_law_witness :
    ∃ c pre post,
      ∃ P, buildLoop ["5 februari", "09:00 Info", "09:00 Info"] 2026
          ["5 februari", "09:00 Info", "09:00 Info"] 0 none = .ok P ∧
        P.filter (fun c => keyOf c = ("2026-02-05", "info info info")) =
          pre ++ c :: post ∧
        (∃ F, build_events 2026 (fun _ => 0)
            ["5 februari", "09:00 Info", "09:00 Info"] = .ok F ∧
          F.filter (fun f => keyOf f = ("2026-02-05", "info info info")) =
            [assignUid (fun _ => 0) c]) := by
  have h := build_events_dedup_law 2026 (fun _ => 0)
    ["5 februari", "09:00 Info", "09:00 Info"] _ _
    ("2026-02-05", "info info info") rfl rfl (by decide)
  rcases h with ⟨c, pre, post, hdec, hmin, hstrict, hfin⟩
  exact ⟨c, pre, post, _, rfl, hdec, _, rfl, hfin⟩

/-! ## Whitespace collapsing: characterization and idempotence -/

theorem dropWhile_head_false {p : Char → Bool} :
    ∀ (l : List Char) {x : Char} {xs : List Char},
      l.dropWhile p = x :: xs → p x = false := by
  intro l
  induction l with
  | nil => intro x xs h; cases h
  | cons c cs ih =>
    intro x xs h
    rw [List.dropWhile_cons] at h
    by_cases hc : p c = true
    · rw [if_pos hc] at h; exact ih h
    · rw [if_neg hc] at h
      cases h
      exact Bool.eq_false_iff.mpr hc

/-- A `dropWhile`-fixed nonempty list starts with a failing element. -/
theorem head_false_of_dropWhile_fixed {p : Char → Bool} {x : Char}
    {xs : List Char} (h : (x :: xs).dropWhile p = x :: xs) : p x = false :=
  dropWhile_head_false _ h

theorem dropWhile_fixed_of_head_false {p : Char → Bool} {l : List Char}
    (h : ∀ x xs, l = x :: xs → p x = false) : l.dropWhile p = l := by
  cases l with
  | nil => rfl
  | cons x xs => rw [List.dropWhile_cons, if_neg (by simp [h x xs rfl])]

/-- The `re.sub`-style characterization of `collapseChars`: rewrite the
head whitespace run to one space and continue after it. -/
theorem collapseChars_cons (c : Char) :
    ∀ cs, collapseChars (c :: cs) =
      if isPySpace c = true then
        ' ' :: collapseChars (cs.dropWhile isPySpace)
      else c :: collapseChars cs := by
  intro cs
  induction cs generalizing c with
  | nil =>
    show (if isPySpace c = true then [' '] else [c]) = _
    by_cases hc : isPySpace c = true
    · rw [if_pos hc, if_pos hc]; rfl
    · rw [if_neg hc, if_neg hc]; rfl
  | cons d ds ih =>
    show (if isPySpace c = true then
        (if isPySpace d = true then collapseChars (d :: ds)
          else ' ' :: collapseChars (d :: ds))
      else c :: collapseChars (d :: ds)) = _
    by_cases hc : isPySpace c = true
    · rw [if_pos hc, if_pos hc, List.dropWhile_cons]
      by_cases hd : isPySpace d = true
      · rw [if_pos hd, if_pos hd, ih d, if_pos hd]
      · rw [if_neg hd, if_neg hd]
    · rw [if_neg hc, if_neg hc]

/-- The head of `collapseChars` on a list with a non-whitespace head. -/
theorem collapseChars_head {d : Char} (hd : isPySpace d = false)
    (cs : List Char) : collapseChars (d :: cs) = d :: collapseChars cs := by
  rw [collapseChars_cons, if_neg (by simp [hd])]

theorem mem_collapseChars :
    ∀ {s : List Char} {c : Char}, c ∈ collapseChars s → c ∈ s ∨ c = ' ' := by
  intro s
  induction s using collapseChars.induct with
  | case1 => intro c h; cases h
  | case2 d hd =>
    intro c h
    rw [show collapseChars [d] = [' '] from by simp [collapseChars, hd]] at h
    right
    exact List.mem_singleton.mp h
  | case3 d hd =>
    intro c h
    rw [show collapseChars [d] = [d] from by simp [collapseChars, hd]] at h
    left
    exact h
  | case4 c₀ d cs hc₀ hd ih =>
    intro c h
    rw [show collapseChars (c₀ :: d :: cs) = collapseChars (d :: cs) from by
      simp [collapseChars, hc₀, hd]] at h
    rcases ih h with h' | h'
    · left; exact List.mem_cons_of_mem _ h'
    · right; exact h'
  | case5 c₀ d cs hc₀ hd ih =>
    intro c h
    rw [show collapseChars (c₀ :: d :: cs) = ' ' :: collapseChars (d :: cs)
      from by simp [collapseChars, hc₀, hd]] at h
    rcases List.mem_cons.mp h with h' | h'
    · right; exact h'
    · rcases ih h' with h'' | h''
      · left; exact List.mem_cons_of_mem _ h''
      · right; exact h''
  | case6 c₀ d cs hc₀ ih =>
    intro c h
    rw [show collapseChars (c₀ :: d :: cs) = c₀ :: collapseChars (d :: cs)
      from by simp [collapseChars, hc₀]] at h
    rcases List.mem_cons.mp h with h' | h'
    · left; rw [h']; exact List.mem_cons_self _ _
    · rcases ih h' with h'' | h''
      · left; exact List.mem_cons_of_mem _ h''
      · right; exact h''

theorem wsNormal_collapseChars (s : List Char) : WsNormal (collapseChars s) := by
  induction s using collapseChars.induct with
  | case1 =>
    refine ⟨?_, List.chain'_nil⟩
    intro c h
    cases h
  | case2 d hd =>
    rw [show collapseChars [d] = [' '] from by simp [collapseChars, hd]]
    refine ⟨?_, List.chain'_singleton _⟩
    intro c h _
    exact List.mem_singleton.mp h
  | case3 d hd =>
    rw [show collapseChars [d] = [d] from by simp [collapseChars, hd]]
    refine ⟨?_, List.chain'_singleton _⟩
    intro c h h'
    rw [List.mem_singleton.mp h] at h'
    exact absurd h' hd
  | case4 c₀ d cs hc₀ hd ih =>
    rw [show collapseChars (c₀ :: d :: cs) = collapseChars (d :: cs) from by
      simp [collapseChars, hc₀, hd]]
    exact ih
  | case5 c₀ d cs hc₀ hd ih =>
    rw [show collapseChars (c₀ :: d :: cs) = ' ' :: collapseChars (d :: cs)
      from by simp [collapseChars, hc₀, hd]]
    rcases ih with ⟨ihm, ihc⟩
    refine ⟨?_, ?_⟩
    · intro c h h'
      rcases List.mem_cons.mp h with h'' | h''
      · exact h''
      · exact ihm c h'' h'
    · rw [List.chain'_cons']
      refine ⟨?_, ihc⟩
      intro y hy
      rw [collapseChars_head (Bool.eq_false_iff.mpr hd) cs] at hy
      cases hy
      intro hcon
      exact hd hcon.2
  | case6 c₀ d cs hc₀ ih =>
    rw [show collapseChars (c₀ :: d :: cs) = c₀ :: collapseChars (d :: cs)
      from by simp [collapseChars, hc₀]]
    rcases ih with ⟨ihm, ihc⟩
    refine ⟨?_, ?_⟩
    · intro c h h'
      rcases List.mem_cons.mp h with h'' | h''
      · rw [h''] at h'
        exact absurd h' hc₀
      · exact ihm c h'' h'
    · rw [List.chain'_cons']
      refine ⟨?_, ihc⟩
      intro y _ hcon
      exact absurd hcon.1 hc₀

theorem collapseChars_of_wsNormal : ∀ {s : List Char}, WsNormal s →
    collapseChars s = s := by
  intro s
  induction s with
  | nil => intro _; rfl
  | cons c cs ih =>
    intro h
    obtain ⟨hm, hc⟩ := h
    rw [collapseChars_cons]
    by_cases hsp : isPySpace c = true
    · rw [if_pos hsp]
      have hce : c = ' ' := hm c (List.mem_cons_self _ _) hsp
      have hdw : cs.dropWhile isPySpace = cs := by
        apply dropWhile_fixed_of_head_false
        intro x xs hxs
        have := (List.chain'_cons'.mp hc).1 x (by rw [hxs]; rfl)
        rcases Bool.eq_false_or_eq_true (isPySpace x) with h' | h'
        · exact absurd ⟨hsp, h'⟩ this
        · exact h'
      rw [hdw, hce,
        ih ⟨fun d hd => hm d (List.mem_cons_of_mem _ hd),
          (List.chain'_cons'.mp hc).2⟩]
    · rw [if_neg hsp,
        ih ⟨fun d hd => hm d (List.mem_cons_of_mem _ hd),
          (List.chain'_cons'.mp hc).2⟩]

/-! ## Stripping: characterization and preservation -/

theorem pyStrip_of_stripped {s : List Char} (h : Stripped s) :
    pyStrip s = s := by
  unfold pyStrip
  rw [h.1, h.2, List.reverse_reverse]

theorem pyStrip_front (s : List Char) :
    pyStrip s <+: s.dropWhile isPySpace := by
  have h := List.reverse_prefix.mpr
    (List.dropWhile_suffix (l := (s.dropWhile isPySpace).reverse) isPySpace)
  rw [List.reverse_reverse] at h
  exact h

theorem stripped_pyStrip (s : List Char) : Stripped (pyStrip s) := by
  constructor
  · apply dropWhile_fixed_of_head_false
    intro x xs hxs
    rcases pyStrip_front s with ⟨t, ht⟩
    rw [hxs] at ht
    have hs : s.dropWhile isPySpace = x :: (xs ++ t) := by
      rw [← ht, List.cons_append]
    exact dropWhile_head_false s hs
  · unfold pyStrip
    simp only [List.reverse_reverse]
    exact List.dropWhile_idempotent _ _

theorem mem_pyStrip {s : List Char} {c : Char} (h : c ∈ pyStrip s) : c ∈ s := by
  rcases (pyStrip_front s).subset h with h'
  exact (List.dropWhile_sublist _).subset h'

theorem wsNormal_pyStrip {s : List Char} (h : WsNormal s) :
    WsNormal (pyStrip s) := by
  refine ⟨fun c hc => h.1 c (mem_pyStrip hc), ?_⟩
  exact List.Chain'.prefix (h.2.suffix (List.dropWhile_suffix _))
    (pyStrip_front s)

theorem wsNormal_collapseStrip (s : List Char) :
    WsNormal (collapseStrip s) :=
  wsNormal_pyStrip (wsNormal_collapseChars s)

theorem stripped_collapseStrip (s : List Char) : Stripped (collapseStrip s) :=
  stripped_pyStrip _

theorem collapseStrip_of_normal {s : List Char} (h₁ : WsNormal s)
    (h₂ : Stripped s) : collapseStrip s = s := by
  unfold collapseStrip
  rw [collapseChars_of_wsNormal h₁, pyStrip_of_stripped h₂]

theorem collapseStrip_idem (s : List Char) :
    collapseStrip (collapseStrip s) = collapseStrip s :=
  collapseStrip_of_normal (wsNormal_collapseStrip s) (stripped_collapseStrip s)

/-! ## C8: title derivation

The Line Normalizer contract (spec §2, §6) delivers non-empty,
whitespace-normalized lines; on such lines `line.strip()` is `line`
itself, so the source's `len(title) <= 6` test coincides with the claim's
"trimmed line is six characters or fewer", and appending the next line
with a single space is already normalized. -/

theorem normalize_fix_iff (x : String) :
    normalize_whitespace x = x ↔ collapseStrip x.data = x.data := by
  constructor
  · intro h
    have h' := congrArg String.data h
    exact h'
  · intro h
    unfold normalize_whitespace
    rw [h]
    rfl

theorem data_ne_nil_of_ne_empty {x : String} (h : x ≠ "") : x.data ≠ [] := by
  intro hd
  exact h (String.ext hd)

theorem stripped_head_not_space {a : List Char} (h : Stripped a) :
    ∀ x xs, a = x :: xs → isPySpace x = false := by
  intro x xs hx
  rw [hx] at h
  exact head_false_of_dropWhile_fixed h.1

theorem stripped_last_not_space {a : List Char} (h : Stripped a) :
    ∀ x, a.getLast? = some x → isPySpace x = false := by
  intro x hx
  rw [← List.head?_reverse] at hx
  cases hr : a.reverse with
  | nil => rw [hr] at hx; cases hx
  | cons y ys =>
    rw [hr] at hx
    cases hx
    have h₂ := h.2
    rw [hr] at h₂
    exact head_false_of_dropWhile_fixed h₂

theorem wsNormal_join {a b : List Char} (ha : WsNormal a) (hb : WsNormal b)
    (hsa : Stripped a) (hsb : Stripped b) : WsNormal (a ++ ' ' :: b) := by
  refine ⟨?_, ?_⟩
  · intro c hc hsp
    rcases List.mem_append.mp hc with h | h
    · exact ha.1 c h hsp
    · rcases List.mem_cons.mp h with h' | h'
      · exact h'
      · exact hb.1 c h' hsp
  · rw [List.chain'_append]
    refine ⟨ha.2, ?_, ?_⟩
    · rw [List.chain'_cons']
      refine ⟨?_, hb.2⟩
      intro y hy hcon
      cases hbn : b with
      | nil => rw [hbn] at hy; cases hy
      | cons z zs =>
        rw [hbn] at hy
        have hyz : z = y := by simpa using hy
        have hzf := stripped_head_not_space hsb z zs hbn
        rw [hyz] at hzf
        rw [hzf] at hcon
        exact Bool.false_ne_true hcon.2
    · intro x hx y hy hcon
      rw [stripped_last_not_space hsa x hx] at hcon
      exact Bool.false_ne_true hcon.1

theorem stripped_join {a b : List Char} (hane : a ≠ []) (hbne : b ≠ [])
    (hsa : Stripped a) (hsb : Stripped b) : Stripped (a ++ ' ' :: b) := by
  constructor
  · apply dropWhile_fixed_of_head_false
    intro x xs hx
    cases han : a with
    | nil => exact absurd han hane
    | cons c a' =>
      rw [han, List.cons_append, List.cons.injEq] at hx
      rw [← hx.1]
      exact stripped_head_not_space hsa c a' han
  · apply dropWhile_fixed_of_head_false
    intro x xs hx
    rw [List.reverse_append, List.reverse_cons] at hx
    cases hbr : b.reverse with
    | nil => exact absurd (by rw [← List.reverse_reverse b, hbr]; rfl) hbne
    | cons y ys =>
      rw [hbr, List.append_assoc, List.cons_append, List.cons.injEq] at hx
      rw [← hx.1]
      have h₂ := hsb.2
      rw [hbr] at h₂
      exact head_false_of_dropWhile_fixed h₂

/-- A whitespace-normalized, non-empty line joined to another by a single
space is still normalized. -/
theorem normalize_join {x y : String} (hx : normalize_whitespace x = x)
    (hy : normalize_whitespace y = y) (hxe : x ≠ "") (hye : y ≠ "") :
    normalize_whitespace (x ++ " " ++ y) = x ++ " " ++ y := by
  have hx' := (normalize_fix_iff x).mp hx
  have hy' := (normalize_fix_iff y).mp hy
  have hwx : WsNormal x.data := by rw [← hx']; exact wsNormal_collapseStrip _
  have hwy : WsNormal y.data := by rw [← hy']; exact wsNormal_collapseStrip _
  have hsx : Stripped x.data := by rw [← hx']; exact stripped_collapseStrip _
  have hsy : Stripped y.data := by rw [← hy']; exact stripped_collapseStrip _
  rw [normalize_fix_iff]
  have hdata : (x ++ " " ++ y).data = x.data ++ ' ' :: y.data := by
    rw [String.data_append, String.data_append, List.append_assoc]
    rfl
  rw [hdata]
  exact collapseStrip_of_normal (wsNormal_join hwx hwy hsx hsy)
    (stripped_join (data_ne_nil_of_ne_empty hxe) (data_ne_nil_of_ne_empty hye)
      hsx hsy)

/-- **C8.** On normalized non-empty lines (the Line Normalizer contract of
spec §2/§6): for a time-matching line at index `i` under an established
cursor, the emitted title is the line followed by the next line exactly
when the trimmed line has at most six characters and a next line exists,
and the line itself otherwise. -/
theorem title_derivation (lines : List String) (i : Nat) (line : String)
    (hline : normalize_whitespace line = line) (hne : line ≠ "")
    (hnext : normalize_whitespace (lines.getD (i + 1) "") =
      lines.getD (i + 1) "")
    (hnextne : i + 1 < lines.length → lines.getD (i + 1) "" ≠ "") :
    titleAt lines i line =
      if (pyStrip line.data).length ≤ 6 ∧ i + 1 < lines.length then
        line ++ " " ++ lines.getD (i + 1) ""
      else line := by
  have hst : Stripped line.data := by
    rw [← (normalize_fix_iff line).mp hline]
    exact stripped_collapseStrip _
  have hps : (pyStrip line.data).length = line.length := by
    rw [pyStrip_of_stripped hst]
    rfl
  unfold titleAt
  simp only [hps]
  by_cases hcond : line.length ≤ 6 ∧ i + 1 < lines.length
  · have hbool : (line.length ≤ 6 && decide (i + 1 < lines.length)) = true := by
      simp [hcond.1, hcond.2]
    rw [hbool, if_pos rfl, if_pos hcond]
    exact normalize_join hline hnext hne (hnextne hcond.2)
  · have hbool : (line.length ≤ 6 && decide (i + 1 < lines.length)) = false := by
      rcases Decidable.not_and_iff_or_not.mp hcond with h | h <;> simp [h]
    rw [hbool, if_neg (by simp), if_neg hcond]
    exact hline

/-- Witness for C8: spec Example 4 — the time-only line `"12.45"` takes
the following line into its title, through the title function and through
the whole pipeline. -/
theorem title_derivation_witness :
    titleAt ["5 februari", "12.45", "Längdskidor damer"] 1 "12.45" =
      "12.45 Längdskidor damer" ∧
    (∃ e, build_events 2026 (fun _ => 0)
        ["5 februari", "12.45", "Längdskidor damer"] = .ok [e] ∧
      e.name = "12.45 Längdskidor damer") := by
  constructor
  · have h := title_derivation ["5 februari", "12.45", "Längdskidor damer"] 1
      "12.45" (by decide) (by decide) (by decide) (fun _ => by decide)
    rw [h, if_pos (by decide)]
    rfl
  · exact ⟨assignUid (fun _ => 0)
      { name := "12.45 Längdskidor damer", begin := ⟨2026, 2, 5, 12, 45⟩,
        endT := ⟨2026, 2, 5, 13, 45⟩,
        description := "5 februari | 12.45 | Längdskidor damer",
        uid := "" }, rfl, rfl⟩

/-! ## C9: idempotence of canonicalization

Proof plan: the output of `canonL` is lower-case-fixed, contains no `|`,
is whitespace-collapsed and stripped, and none of its maximal word runs is
a 1-2 digit number, a weekday name or a month token; on such a string
every stage of `canonL` is the identity.  The word runs of the output are
tracked through the pipeline: they are exactly the word items left by the
substitution stages, on which the stages themselves enforce the three
negations. -/

theorem runsP_cons_ne_nil (p : Char → Bool) (c : Char) (cs : List Char) :
    runsP p (c :: cs) ≠ [] := by
  cases cs with
  | nil => exact fun h => List.cons_ne_nil _ _ h
  | cons d ds =>
    cases h : runsP p (d :: ds) with
    | nil => simp [runsP, h]
    | cons r rs =>
      by_cases hp : p c = p d <;> simp [runsP, h, hp]

theorem runsP_cons_head (p : Char → Bool) (c : Char) (cs : List Char) :
    ∃ t rs, runsP p (c :: cs) = (c :: t) :: rs := by
  cases cs with
  | nil => exact ⟨[], [], rfl⟩
  | cons d ds =>
    cases h : runsP p (d :: ds) with
    | nil => exact ⟨[], [], by simp [runsP, h]⟩
    | cons r rs =>
      by_cases hp : p c = p d
      · exact ⟨r, rs, by simp [runsP, h, hp]⟩
      · exact ⟨[], r :: rs, by simp [runsP, h, hp]⟩

theorem runsP_flatten (p : Char → Bool) :
    ∀ s : List Char, (runsP p s).flatten = s := by
  intro s
  induction s with
  | nil => rfl
  | cons c cs ih =>
    cases cs with
    | nil => rfl
    | cons d ds =>
      cases h : runsP p (d :: ds) with
      | nil => exact absurd h (runsP_cons_ne_nil p d ds)
      | cons r rs =>
        rw [h] at ih
        by_cases hp : p c = p d
        · simp only [runsP, h, if_pos hp, List.flatten_cons, List.cons_append]
          rw [← List.flatten_cons]
          rw [ih]
        · simp only [runsP, h, if_neg hp, List.flatten_cons,
            List.singleton_append]
          rw [← List.flatten_cons]
          rw [ih]

theorem runsP_mem_ne_nil {p : Char → Bool} :
    ∀ {s : List Char} {r : List Char}, r ∈ runsP p s → r ≠ [] := by
  intro s
  induction s with
  | nil => intro r h; cases h
  | cons c cs ih =>
    cases cs with
    | nil =>
      intro r h
      rw [List.mem_singleton.mp h]
      exact List.cons_ne_nil _ _
    | cons d ds =>
      intro r h
      cases hr : runsP p (d :: ds) with
      | nil => exact absurd hr (runsP_cons_ne_nil p d ds)
      | cons r₀ rs =>
        by_cases hp : p c = p d
        · simp only [runsP, hr, if_pos hp] at h
          rcases List.mem_cons.mp h with h' | h'
          · rw [h']; exact List.cons_ne_nil _ _
          · exact ih (by rw [hr]; exact List.mem_cons_of_mem _ h')
        · simp only [runsP, hr, if_neg hp] at h
          rcases List.mem_cons.mp h with h' | h'
          · rw [h']; exact List.cons_ne_nil _ _
          · exact ih (by rw [hr]; exact h')

/-- Homogeneity: all characters of one run have the same `p`-value. -/
theorem runsP_homog {p : Char → Bool} :
    ∀ {s : List Char} {r : List Char}, r ∈ runsP p s →
      ∀ a ∈ r, ∀ b ∈ r, p a = p b := by
  intro s
  induction s with
  | nil => intro r h; cases h
  | cons c cs ih =>
    cases cs with
    | nil =>
      intro r h a ha b hb
      rw [List.mem_singleton.mp h] at ha hb
      rw [List.mem_singleton.mp ha, List.mem_singleton.mp hb]
    | cons d ds =>
      intro r h a ha b hb
      cases hr : runsP p (d :: ds) with
      | nil => exact absurd hr (runsP_cons_ne_nil p d ds)
      | cons r₀ rs =>
        rcases runsP_cons_head p d ds with ⟨t, rs', hhead⟩
        rw [hr] at hhead
        have hr₀ : r₀ = d :: t := (List.cons.injEq _ _ _ _ ▸ hhead).1
        have hmem₀ : r₀ ∈ runsP p (d :: ds) := by
          rw [hr]; exact List.mem_cons_self _ _
        by_cases hp : p c = p d
        · simp only [runsP, hr, if_pos hp] at h
          rcases List.mem_cons.mp h with h' | h'
          · rw [h'] at ha hb
            have haux : ∀ x ∈ c :: r₀, p x = p c := by
              intro x hx
              rcases List.mem_cons.mp hx with hx' | hx'
              · rw [hx']
              · have := ih hmem₀ x hx' d (by rw [hr₀]; exact List.mem_cons_self _ _)
                rw [this, hp]
            rw [haux a ha, haux b hb]
          · exact ih (by rw [hr]; exact List.mem_cons_of_mem _ h') a ha b hb
        · simp only [runsP, hr, if_neg hp] at h
          rcases List.mem_cons.mp h with h' | h'
          · rw [h'] at ha hb
            rw [List.mem_singleton.mp ha, List.mem_singleton.mp hb]
          · exact ih (by rw [hr]; exact h') a ha b hb

/-- The first run's word status is its head character's. -/
theorem runsP_first_any {s : List Char} {r₀ : List Char}
    {rs : List (List Char)} {d : Char} {ds : List Char}
    (hs : s = d :: ds) (hr : runsP isWordChar s = r₀ :: rs) :
    wordItem r₀ = isWordChar d := by
  subst hs
  rcases runsP_cons_head isWordChar d ds with ⟨t, rs', hhead⟩
  rw [hr] at hhead
  have hr₀ : r₀ = d :: t := (List.cons.injEq _ _ _ _ ▸ hhead).1
  cases hw : isWordChar d with
  | true =>
    rw [hr₀]
    simp [wordItem, List.any_cons, hw]
  | false =>
    rw [Bool.eq_false_iff]
    intro hany
    rcases List.any_eq_true.mp hany with ⟨x, hx, hxw⟩
    have := runsP_homog (by rw [hr]; exact List.mem_cons_self _ _) x hx d
      (by rw [hr₀]; exact List.mem_cons_self _ _)
    rw [hxw, hw] at this
    cases this

/-- No two adjacent runs are both word runs (polarities alternate). -/
theorem runsP_noAdjWords :
    ∀ s : List Char, List.Chain'
      (fun r r' => ¬(wordItem r = true ∧ wordItem r' = true))
      (runsP isWordChar s) := by
  intro s
  induction s with
  | nil => exact List.chain'_nil
  | cons c cs ih =>
    cases cs with
    | nil => exact List.chain'_singleton _
    | cons d ds =>
      cases hr : runsP isWordChar (d :: ds) with
      | nil => exact absurd hr (runsP_cons_ne_nil _ d ds)
      | cons r₀ rs =>
        rw [hr] at ih
        have hany : wordItem r₀ = isWordChar d := runsP_first_any rfl hr
        by_cases hp : isWordChar c = isWordChar d
        · simp only [runsP, hr, if_pos hp]
          have hci : wordItem (c :: r₀) = wordItem r₀ := by
            show (isWordChar c || r₀.any isWordChar) = _
            rw [hp, ← hany]
            exact Bool.or_self _
          rw [List.chain'_cons']
          refine ⟨?_, (List.chain'_cons'.mp ih).2⟩
          intro y hy hcon
          exact (List.chain'_cons'.mp ih).1 y hy ⟨by rw [← hci]; exact hcon.1,
            hcon.2⟩
        · simp only [runsP, hr, if_neg hp]
          rw [List.chain'_cons']
          refine ⟨?_, ih⟩
          intro y hy hcon
          have hy' : r₀ = y := by simpa using hy
          apply hp
          have h1 : isWordChar c = true := by simpa [wordItem] using hcon.1
          have h2 : wordItem r₀ = true := by rw [hy']; exact hcon.2
          rw [h1, ← hany, h2]

/-! ### `wordRuns`: structure and invariance -/

theorem isPySpace_not_word {c : Char} (h : isPySpace c = true) :
    isWordChar c = false := by
  simp only [isPySpace, Bool.or_eq_true, decide_eq_true_eq] at h
  rcases h with ((((h | h) | h) | h) | h) | h <;> subst h <;> decide

theorem wordRuns_nonword_cons {c : Char} (hc : isWordChar c = false)
    (cs : List Char) : wordRuns (c :: cs) = wordRuns cs := by
  cases cs with
  | nil => simp [wordRuns, hc]
  | cons d ds => simp [wordRuns, hc]

theorem wordRuns_nonword_front :
    ∀ (a t : List Char), (∀ c ∈ a, isWordChar c = false) →
      wordRuns (a ++ t) = wordRuns t := by
  intro a
  induction a with
  | nil => intro t _; rfl
  | cons c a' ih =>
    intro t h
    rw [List.cons_append,
      wordRuns_nonword_cons (h c (List.mem_cons_self _ _))]
    exact ih t (fun x hx => h x (List.mem_cons_of_mem _ hx))

theorem wordRuns_nil_of_nonword {b : List Char}
    (h : ∀ c ∈ b, isWordChar c = false) : wordRuns b = [] := by
  have := wordRuns_nonword_front b [] h
  rw [List.append_nil] at this
  exact this

theorem wordRuns_cons_congr {X X' : List Char} (c : Char)
    (h1 : wordRuns X = wordRuns X') (h2 : headIsWord X = headIsWord X') :
    wordRuns (c :: X) = wordRuns (c :: X') := by
  by_cases hc : isWordChar c = true
  · cases X with
    | nil =>
      cases X' with
      | nil => rfl
      | cons d' xs' =>
        have hd' : isWordChar d' = false := by
          have := h2.symm
          simpa [headIsWord] using this
        show wordRuns [c] = wordRuns (c :: d' :: xs')
        rw [show wordRuns (c :: d' :: xs') = [c] :: wordRuns (d' :: xs') from by
          simp [wordRuns, hc, hd']]
        rw [show wordRuns (d' :: xs') = [] from by rw [← h1]; rfl]
        simp [wordRuns, hc]
    | cons d xs =>
      cases X' with
      | nil =>
        have hd : isWordChar d = false := by simpa [headIsWord] using h2
        show wordRuns (c :: d :: xs) = wordRuns [c]
        rw [show wordRuns (c :: d :: xs) = [c] :: wordRuns (d :: xs) from by
          simp [wordRuns, hc, hd]]
        rw [show wordRuns (d :: xs) = [] from by rw [h1]; rfl]
        simp [wordRuns, hc]
      | cons d' xs' =>
        have hdd : isWordChar d = isWordChar d' := by
          simpa [headIsWord] using h2
        by_cases hd : isWordChar d = true
        · have hd' : isWordChar d' = true := by rw [← hdd]; exact hd
          show wordRuns (c :: d :: xs) = wordRuns (c :: d' :: xs')
          rw [show wordRuns (c :: d :: xs) = (match wordRuns (d :: xs) with
              | [] => [[c]]
              | r :: rs => (c :: r) :: rs) from by
            simp [wordRuns, hc, hd]]
          rw [show wordRuns (c :: d' :: xs') = (match wordRuns (d' :: xs') with
              | [] => [[c]]
              | r :: rs => (c :: r) :: rs) from by
            simp [wordRuns, hc, hd']]
          rw [h1]
        · have hd' : isWordChar d' = false := by
            rw [← hdd]; exact Bool.eq_false_iff.mpr hd
          rw [show wordRuns (c :: d :: xs) = [c] :: wordRuns (d :: xs) from by
            simp [wordRuns, hc, hd],
            show wordRuns (c :: d' :: xs') = [c] :: wordRuns (d' :: xs')
              from by simp [wordRuns, hc, hd'],
            h1]
  · have hc' : isWordChar c = false := Bool.eq_false_iff.mpr hc
    rw [wordRuns_nonword_cons hc', wordRuns_nonword_cons hc', h1]

theorem wordRuns_word_run_cons :
    ∀ (w : List Char), w ≠ [] → (∀ c ∈ w, isWordChar c = true) →
      ∀ (rest : List Char), headIsWord rest = false →
        wordRuns (w ++ rest) = w :: wordRuns rest := by
  intro w
  induction w with
  | nil => intro h; exact absurd rfl h
  | cons c w' ih =>
    intro _ hall rest hrest
    have hc : isWordChar c = true := hall c (List.mem_cons_self _ _)
    cases w' with
    | nil =>
      cases rest with
      | nil => simp [wordRuns, hc]
      | cons d rs =>
        have hd : isWordChar d = false := by simpa [headIsWord] using hrest
        show wordRuns (c :: d :: rs) = [c] :: wordRuns (d :: rs)
        simp [wordRuns, hc, hd]
    | cons c' w'' =>
      have hc' : isWordChar c' = true :=
        hall c' (List.mem_cons_of_mem _ (List.mem_cons_self _ _))
      have hih := ih (List.cons_ne_nil _ _)
        (fun x hx => hall x (List.mem_cons_of_mem _ hx)) rest hrest
      show wordRuns (c :: c' :: (w'' ++ rest)) = _
      rw [show wordRuns (c :: c' :: (w'' ++ rest)) =
          (match wordRuns (c' :: (w'' ++ rest)) with
          | [] => [[c]]
          | r :: rs => (c :: r) :: rs) from by simp [wordRuns, hc, hc']]
      rw [show c' :: (w'' ++ rest) = (c' :: w'') ++ rest from rfl, hih]

theorem wordRuns_map_inv {f : Char → Char}
    (hword : ∀ x, isWordChar (f x) = isWordChar x)
    (hfix : ∀ x, isWordChar x = true → f x = x) :
    ∀ s : List Char, wordRuns (s.map f) = wordRuns s := by
  intro s
  induction s with
  | nil => rfl
  | cons c cs ih =>
    rw [List.map_cons]
    by_cases hc : isWordChar c = true
    · rw [hfix c hc]
      refine wordRuns_cons_congr c ih ?_
      cases cs with
      | nil => rfl
      | cons d ds =>
        show isWordChar (f d) = isWordChar d
        exact hword d
    · have hfc : isWordChar (f c) = false := by
        rw [hword c]; exact Bool.eq_false_iff.mpr hc
      rw [wordRuns_nonword_cons hfc,
        wordRuns_nonword_cons (Bool.eq_false_iff.mpr hc), ih]

theorem wordRuns_collapseChars :
    ∀ s : List Char, wordRuns (collapseChars s) = wordRuns s := by
  intro s
  induction s using collapseChars.induct with
  | case1 => rfl
  | case2 d hd =>
    rw [show collapseChars [d] = [' '] from by simp [collapseChars, hd]]
    have h1 : wordRuns [' '] = [] := by
      apply wordRuns_nil_of_nonword
      intro c hc
      rw [List.mem_singleton.mp hc]
      decide
    have h2 : wordRuns [d] = [] := by
      apply wordRuns_nil_of_nonword
      intro c hc
      rw [List.mem_singleton.mp hc]
      exact isPySpace_not_word hd
    rw [h1, h2]
  | case3 d hd =>
    rw [show collapseChars [d] = [d] from by simp [collapseChars, hd]]
  | case4 c d cs hc hd ih =>
    rw [show collapseChars (c :: d :: cs) = collapseChars (d :: cs) from by
      simp [collapseChars, hc, hd], ih,
      wordRuns_nonword_cons (isPySpace_not_word hc)]
  | case5 c d cs hc hd ih =>
    rw [show collapseChars (c :: d :: cs) = ' ' :: collapseChars (d :: cs)
      from by simp [collapseChars, hc, hd],
      wordRuns_nonword_cons (by decide), ih,
      wordRuns_nonword_cons (isPySpace_not_word hc)]
  | case6 c d cs hc ih =>
    rw [show collapseChars (c :: d :: cs) = c :: collapseChars (d :: cs)
      from by simp [collapseChars, hc]]
    refine wordRuns_cons_congr c ih ?_
    by_cases hd : isPySpace d = true
    · rw [show collapseChars (d :: cs) = ' ' :: collapseChars
        (cs.dropWhile isPySpace) from by rw [collapseChars_cons, if_pos hd]]
      show isWordChar ' ' = isWordChar d
      rw [isPySpace_not_word hd]
      decide
    · rw [collapseChars_head (Bool.eq_false_iff.mpr hd) cs]
      rfl

theorem wordRuns_append_nonword :
    ∀ (t b : List Char), (∀ c ∈ b, isWordChar c = false) →
      wordRuns (t ++ b) = wordRuns t := by
  intro t
  induction t with
  | nil => intro b hb; exact wordRuns_nil_of_nonword hb
  | cons c t' ih =>
    intro b hb
    rw [List.cons_append]
    refine wordRuns_cons_congr c (ih b hb) ?_
    cases t' with
    | nil =>
      cases b with
      | nil => rfl
      | cons x bs =>
        show isWordChar x = false
        exact hb x (List.mem_cons_self _ _)
    | cons x ts => rfl

theorem wordRuns_pyStrip (s : List Char) :
    wordRuns (pyStrip s) = wordRuns s := by
  have h1 : wordRuns (s.dropWhile isPySpace) = wordRuns s := by
    conv_rhs => rw [← List.takeWhile_append_dropWhile (p := isPySpace) (l := s)]
    rw [wordRuns_nonword_front _ _ (fun c hc =>
      isPySpace_not_word (List.mem_takeWhile_imp hc))]
  have h2 : s.dropWhile isPySpace =
      pyStrip s ++ ((s.dropWhile isPySpace).reverse.takeWhile isPySpace).reverse := by
    conv_lhs => rw [← List.reverse_reverse (s.dropWhile isPySpace),
      ← List.takeWhile_append_dropWhile (p := isPySpace)
        (l := (s.dropWhile isPySpace).reverse)]
    rw [List.reverse_append]
    rfl
  rw [← h1, h2, wordRuns_append_nonword _ _ (fun c hc =>
    isPySpace_not_word (List.mem_takeWhile_imp (List.mem_reverse.mp hc)))]

theorem wordRuns_pipeRep (s : List Char) :
    wordRuns (pipeRep s) = wordRuns s := by
  refine wordRuns_map_inv ?_ ?_ s
  · intro x
    by_cases hx : x = '|'
    · rw [hx]; decide
    · simp [hx]
  · intro x hx
    have : x ≠ '|' := by
      intro hx'
      rw [hx'] at hx
      cases hx
    simp [this]

/-- The word runs among the maximal runs are exactly `wordRuns`. -/
theorem runsP_filter_wordRuns :
    ∀ s : List Char, (runsP isWordChar s).filter wordItem = wordRuns s := by
  intro s
  induction s with
  | nil => rfl
  | cons c cs ih =>
    cases cs with
    | nil =>
      show List.filter wordItem [[c]] = wordRuns [c]
      cases hc : isWordChar c with
      | true => simp [wordRuns, wordItem, hc]
      | false => simp [wordRuns, wordItem, hc]
    | cons d ds =>
      cases hr : runsP isWordChar (d :: ds) with
      | nil => exact absurd hr (runsP_cons_ne_nil _ d ds)
      | cons r₀ rs =>
        rw [hr] at ih
        have hany : wordItem r₀ = isWordChar d := runsP_first_any rfl hr
        by_cases hp : isWordChar c = isWordChar d
        · simp only [runsP, hr, if_pos hp]
          have hci : wordItem (c :: r₀) = isWordChar c := by
            show (isWordChar c || r₀.any isWordChar) = _
            show (isWordChar c || wordItem r₀) = _
            rw [hany, ← hp, Bool.or_self]
          cases hc : isWordChar c with
          | true =>
            have hd : isWordChar d = true := by rw [← hp]; exact hc
            rw [List.filter_cons_of_pos (by rw [hci]; exact hc)]
            rw [List.filter_cons_of_pos (by rw [hany]; exact hd)] at ih
            rw [show wordRuns (c :: d :: ds) =
              (match wordRuns (d :: ds) with
              | [] => [[c]]
              | r :: rs => (c :: r) :: rs) from by simp [wordRuns, hc, hd]]
            rw [← ih]
          | false =>
            have hd : isWordChar d = false := by rw [← hp]; exact hc
            rw [List.filter_cons_of_neg (by rw [hci, hc]; exact
              Bool.false_ne_true)]
            rw [List.filter_cons_of_neg (by rw [hany, hd]; exact
              Bool.false_ne_true)] at ih
            rw [wordRuns_nonword_cons hc, ih]
        · simp only [runsP, hr, if_neg hp]
          cases hc : isWordChar c with
          | true =>
            have hd : isWordChar d = false := by
              rcases Bool.eq_false_or_eq_true (isWordChar d) with h' | h'
              · exact absurd (hc.trans h'.symm) hp
              · exact h'
            have hwc : wordItem [c] = true := by simp [wordItem, hc]
            rw [List.filter_cons_of_pos hwc]
            rw [ih]
            rw [show wordRuns (c :: d :: ds) = [c] :: wordRuns (d :: ds)
              from by simp [wordRuns, hc, hd]]
          | false =>
            have hwc : ¬wordItem [c] = true := by simp [wordItem, hc]
            rw [List.filter_cons_of_neg hwc]
            rw [ih, wordRuns_nonword_cons hc]

/-! ### The substitution stages: membership, invariants, identity -/

theorem mem_condSub {q : List Char → Bool} {rs : List (List Char)}
    {r : List Char} (h : r ∈ rs.map (fun x => if q x then [' '] else x)) :
    r ∈ rs ∨ r = [' '] := by
  rcases List.mem_map.mp h with ⟨x, hx, hxr⟩
  by_cases hq : q x = true
  · rw [if_pos hq] at hxr
    right
    exact hxr.symm
  · rw [if_neg hq] at hxr
    left
    rw [← hxr]
    exact hx

theorem condSub_self_false {q : List Char → Bool} (hq : q [' '] = false)
    {rs : List (List Char)} :
    ∀ r ∈ rs.map (fun x => if q x then [' '] else x), q r = false := by
  intro r h
  rcases List.mem_map.mp h with ⟨x, _, hxr⟩
  by_cases hx : q x = true
  · rw [if_pos hx] at hxr
    rw [← hxr]
    exact hq
  · rw [if_neg hx] at hxr
    rw [← hxr]
    exact Bool.eq_false_iff.mpr hx

theorem condSub_pred_preserve {q q' : List Char → Bool}
    (hq' : q' [' '] = false) {rs : List (List Char)}
    (h : ∀ r ∈ rs, q' r = false) :
    ∀ r ∈ rs.map (fun x => if q x then [' '] else x), q' r = false := by
  intro r hr
  rcases mem_condSub hr with h' | h'
  · exact h r h'
  · rw [h']
    exact hq'

theorem condSub_id {q : List Char → Bool} {rs : List (List Char)}
    (h : ∀ r ∈ rs, q r = false) :
    rs.map (fun x => if q x then [' '] else x) = rs := by
  have : ∀ r ∈ rs, (if q r then [' '] else r) = r := by
    intro r hr
    rw [if_neg (by rw [h r hr]; exact Bool.false_ne_true)]
  rw [List.map_congr_left this, List.map_id']

theorem condSub_chain {q : List Char → Bool} {rs : List (List Char)}
    (h : List.Chain'
      (fun a b => ¬(wordItem a = true ∧ wordItem b = true)) rs) :
    List.Chain' (fun a b => ¬(wordItem a = true ∧ wordItem b = true))
      (rs.map (fun x => if q x then [' '] else x)) := by
  rw [List.chain'_map]
  refine h.imp ?_
  intro a b hab hcon
  apply hab
  constructor
  · by_cases hq : q a = true
    · rw [if_pos hq] at hcon
      exact absurd hcon.1 (by decide)
    · rw [if_neg hq] at hcon
      exact hcon.1
  · by_cases hq : q b = true
    · rw [if_pos hq] at hcon
      exact absurd hcon.2 (by decide)
    · rw [if_neg hq] at hcon
      exact hcon.2

theorem mem_timeSub {rs : List (List Char)} {r : List Char}
    (h : r ∈ timeSub rs) : r ∈ rs ∨ r = [' '] := by
  induction rs using timeSub.induct with
  | case1 w₁ sep w₂ rest htr ih =>
    rw [show timeSub (w₁ :: sep :: w₂ :: rest) = [' '] :: timeSub rest from by
      simp [timeSub, htr]] at h
    rcases List.mem_cons.mp h with h' | h'
    · right; exact h'
    · rcases ih h' with h'' | h''
      · left
        exact List.mem_cons_of_mem _ (List.mem_cons_of_mem _
          (List.mem_cons_of_mem _ h''))
      · right; exact h''
  | case2 w₁ sep w₂ rest htr ih =>
    rw [show timeSub (w₁ :: sep :: w₂ :: rest) =
      w₁ :: timeSub (sep :: w₂ :: rest) from by simp [timeSub, htr]] at h
    rcases List.mem_cons.mp h with h' | h'
    · left; rw [h']; exact List.mem_cons_self _ _
    · rcases ih h' with h'' | h''
      · left; exact List.mem_cons_of_mem _ h''
      · right; exact h''
  | case3 t ht =>
    rw [show timeSub t = t from by
      cases t with
      | nil => rfl
      | cons a t' =>
        cases t' with
        | nil => rfl
        | cons b t'' =>
          cases t'' with
          | nil => rfl
          | cons c t''' => exact absurd rfl (ht a b c t''')] at h
    left
    exact h

theorem timeSub_head? :
    ∀ rs : List (List Char),
      (timeSub rs).head? = rs.head? ∨ (timeSub rs).head? = some [' '] := by
  intro rs
  induction rs using timeSub.induct with
  | case1 w₁ sep w₂ rest htr ih =>
    right
    rw [show timeSub (w₁ :: sep :: w₂ :: rest) = [' '] :: timeSub rest from by
      simp [timeSub, htr]]
    rfl
  | case2 w₁ sep w₂ rest htr ih =>
    left
    rw [show timeSub (w₁ :: sep :: w₂ :: rest) =
      w₁ :: timeSub (sep :: w₂ :: rest) from by simp [timeSub, htr]]
    rfl
  | case3 t ht =>
    left
    rw [show timeSub t = t from by
      cases t with
      | nil => rfl
      | cons a t' =>
        cases t' with
        | nil => rfl
        | cons b t'' =>
          cases t'' with
          | nil => rfl
          | cons c t''' => exact absurd rfl (ht a b c t''')]

theorem timeSub_chain {rs : List (List Char)}
    (h : List.Chain'
      (fun a b => ¬(wordItem a = true ∧ wordItem b = true)) rs) :
    List.Chain' (fun a b => ¬(wordItem a = true ∧ wordItem b = true))
      (timeSub rs) := by
  induction rs using timeSub.induct with
  | case1 w₁ sep w₂ rest htr ih =>
    rw [show timeSub (w₁ :: sep :: w₂ :: rest) = [' '] :: timeSub rest from by
      simp [timeSub, htr]]
    rw [List.chain'_cons']
    refine ⟨?_, ih ?_⟩
    · intro y _ hcon
      exact absurd hcon.1 (by decide)
    · have hsuf : rest <:+ w₁ :: sep :: w₂ :: rest :=
        ((List.suffix_cons w₂ rest).trans (List.suffix_cons sep _)).trans
          (List.suffix_cons w₁ _)
      exact h.suffix hsuf
  | case2 w₁ sep w₂ rest htr ih =>
    rw [show timeSub (w₁ :: sep :: w₂ :: rest) =
      w₁ :: timeSub (sep :: w₂ :: rest) from by simp [timeSub, htr]]
    rw [List.chain'_cons']
    have htail := (List.chain'_cons'.mp h).2
    refine ⟨?_, ih htail⟩
    intro y hy
    rcases timeSub_head? (sep :: w₂ :: rest) with hh | hh
    · rw [hh] at hy
      have hysep : sep = y := by simpa using hy
      rw [← hysep]
      exact (List.chain'_cons'.mp h).1 sep rfl
    · rw [hh] at hy
      have hy' : [' '] = y := by simpa using hy
      intro hcon
      rw [← hy'] at hcon
      exact absurd hcon.2 (by decide)
  | case3 t ht =>
    rw [show timeSub t = t from by
      cases t with
      | nil => rfl
      | cons a t' =>
        cases t' with
        | nil => rfl
        | cons b t'' =>
          cases t'' with
          | nil => rfl
          | cons c t''' => exact absurd rfl (ht a b c t''')]
    exact h

theorem timeSub_id {rs : List (List Char)}
    (h : ∀ r ∈ rs, isNum12 r = false) : timeSub rs = rs := by
  induction rs using timeSub.induct with
  | case1 w₁ sep w₂ rest htr ih =>
    exfalso
    have h₁ : isNum12 w₁ = true :=
      (Bool.and_eq_true_iff.mp
        (Bool.and_eq_true_iff.mp htr).1).1
    rw [h w₁ (List.mem_cons_self _ _)] at h₁
    cases h₁
  | case2 w₁ sep w₂ rest htr ih =>
    rw [show timeSub (w₁ :: sep :: w₂ :: rest) =
      w₁ :: timeSub (sep :: w₂ :: rest) from by simp [timeSub, htr]]
    rw [ih (fun r hr => h r (List.mem_cons_of_mem _ hr))]
  | case3 t ht =>
    cases t with
    | nil => rfl
    | cons a t' =>
      cases t' with
      | nil => rfl
      | cons b t'' =>
        cases t'' with
        | nil => rfl
        | cons c t''' => exact absurd rfl (ht a b c t''')

/-! ### Word runs of a flattened item list -/

/-- With nonempty, polarity-homogeneous items and no two adjacent word
items, the word runs of the concatenation are exactly the word items. -/
theorem wordRuns_flatten_items :
    ∀ items : List (List Char),
      (∀ r ∈ items, r ≠ []) →
      (∀ r ∈ items, wordItem r = true → r.all isWordChar = true) →
      List.Chain' (fun a b => ¬(wordItem a = true ∧ wordItem b = true))
        items →
      wordRuns items.flatten = items.filter wordItem := by
  intro items
  induction items with
  | nil => intro _ _ _; rfl
  | cons r items' ih =>
    intro h1 h2 h3
    have hih := ih (fun x hx => h1 x (List.mem_cons_of_mem _ hx))
      (fun x hx => h2 x (List.mem_cons_of_mem _ hx))
      (List.chain'_cons'.mp h3).2
    rw [List.flatten_cons]
    cases hw : wordItem r with
    | true =>
      have hhead : headIsWord items'.flatten = false := by
        cases hits : items' with
        | nil => rfl
        | cons r' its =>
          have hmemr' : r' ∈ r :: items' := by
            rw [hits]
            exact List.mem_cons_of_mem _ (List.mem_cons_self _ _)
          have hrel := (List.chain'_cons'.mp h3).1 r' (by rw [hits]; rfl)
          have hw' : wordItem r' = false := by
            rcases Bool.eq_false_or_eq_true (wordItem r') with h' | h'
            · exact absurd ⟨hw, h'⟩ hrel
            · exact h'
          cases hr' : r' with
          | nil => exact absurd hr' (h1 r' hmemr')
          | cons x xs =>
            rw [List.flatten_cons, List.cons_append]
            show isWordChar x = false
            rcases Bool.eq_false_or_eq_true (isWordChar x) with h' | h'
            · have hxmem : x ∈ r' := by
                rw [hr']
                exact List.mem_cons_self _ _
              rw [Bool.eq_false_iff] at hw'
              exact absurd (List.any_eq_true.mpr ⟨x, hxmem, h'⟩) hw'
            · exact h'
      have hall : ∀ c ∈ r, isWordChar c = true := fun c hc =>
        List.all_eq_true.mp (h2 r (List.mem_cons_self _ _) hw) c hc
      rw [wordRuns_word_run_cons r (h1 r (List.mem_cons_self _ _)) hall
        items'.flatten hhead]
      rw [hih, List.filter_cons_of_pos hw]
    | false =>
      have hnw : ∀ c ∈ r, isWordChar c = false := by
        intro c hc
        rcases Bool.eq_false_or_eq_true (isWordChar c) with h' | h'
        · rw [Bool.eq_false_iff] at hw
          exact absurd (List.any_eq_true.mpr ⟨c, hc, h'⟩) hw
        · exact h'
      rw [wordRuns_nonword_front r items'.flatten hnw, hih,
        List.filter_cons_of_neg (by rw [hw]; exact Bool.false_ne_true)]

/-! ### Character facts about `pyLower` -/

theorem pyLower_idem (c : Char) : pyLower (pyLower c) = pyLower c := by
  unfold pyLower
  cases hf : lowerPairs.find? (fun p => p.1 = c) with
  | none => rw [hf]
  | some p =>
    have hmem : p ∈ lowerPairs := List.mem_of_find?_eq_some hf
    have hnone : ∀ q ∈ lowerPairs,
        lowerPairs.find? (fun x => x.1 = q.2) = none := by decide
    rw [hnone p hmem]

theorem pyLower_word (c : Char) : isWordChar (pyLower c) = isWordChar c := by
  unfold pyLower
  cases hf : lowerPairs.find? (fun p => p.1 = c) with
  | none => rfl
  | some p =>
    have hmem : p ∈ lowerPairs := List.mem_of_find?_eq_some hf
    have hp : p.1 = c := by
      have := List.find?_some hf
      simpa using this
    have hword : ∀ q ∈ lowerPairs,
        isWordChar q.1 = true ∧ isWordChar q.2 = true := by decide
    rw [(hword p hmem).2, ← hp, (hword p hmem).1]

theorem lowerL_id {s : List Char} (h : ∀ c ∈ s, pyLower c = c) :
    lowerL s = s := by
  unfold lowerL
  rw [List.map_congr_left h, List.map_id']

theorem pipeRep_id {s : List Char} (h : ∀ c ∈ s, c ≠ '|') :
    pipeRep s = s := by
  unfold pipeRep
  have : ∀ c ∈ s, (if c = '|' then ' ' else c) = c := by
    intro c hc
    rw [if_neg (h c hc)]
  rw [List.map_congr_left this, List.map_id']

theorem isWordChar_of_digit {c : Char} (h : isPyDigit c = true) :
    isWordChar c = true := by
  simp [isWordChar, h]

/-! ### Membership and invariants of the canonicalization stages -/

theorem mem_canonStages {rs : List (List Char)} {r : List Char}
    (h : r ∈ canonStages rs) : r ∈ rs ∨ r = [' '] := by
  unfold canonStages monthSub numberSub weekdaySub at h
  rcases mem_condSub h with h | h
  · rcases mem_condSub h with h | h
    · rcases mem_condSub h with h | h
      · exact mem_timeSub h
      · right; exact h
    · right; exact h
  · right; exact h

theorem canonStages_preds {rs : List (List Char)} :
    ∀ r ∈ canonStages rs,
      isNum12 r = false ∧ isWeekdayTok r = false ∧ isMonthTok r = false := by
  intro r hr
  unfold canonStages monthSub numberSub weekdaySub at hr
  refine ⟨?_, ?_, ?_⟩
  · exact condSub_pred_preserve (by decide)
      (condSub_self_false (by decide)) r hr
  · exact condSub_pred_preserve (by decide)
      (condSub_pred_preserve (by decide)
        (condSub_self_false (by decide))) r hr
  · exact condSub_self_false (by decide) r hr

theorem canonStages_ne_nil {rs : List (List Char)}
    (h0 : ∀ r ∈ rs, r ≠ []) : ∀ r ∈ canonStages rs, r ≠ [] := by
  intro r hr
  rcases mem_canonStages hr with h | h
  · exact h0 r h
  · rw [h]; exact List.cons_ne_nil _ _

theorem canonStages_homog {rs : List (List Char)}
    (h0 : ∀ r ∈ rs, wordItem r = true → r.all isWordChar = true) :
    ∀ r ∈ canonStages rs, wordItem r = true → r.all isWordChar = true := by
  intro r hr hw
  rcases mem_canonStages hr with h | h
  · exact h0 r h hw
  · rw [h] at hw
    exact absurd hw (by decide)

theorem canonStages_chain {rs : List (List Char)}
    (h : List.Chain'
      (fun a b => ¬(wordItem a = true ∧ wordItem b = true)) rs) :
    List.Chain' (fun a b => ¬(wordItem a = true ∧ wordItem b = true))
      (canonStages rs) := by
  unfold canonStages monthSub numberSub weekdaySub
  exact condSub_chain (condSub_chain (condSub_chain (timeSub_chain h)))

theorem canonStages_id {rs : List (List Char)}
    (h : ∀ r ∈ rs,
      isNum12 r = false ∧ isWeekdayTok r = false ∧ isMonthTok r = false) :
    canonStages rs = rs := by
  unfold canonStages
  rw [timeSub_id (fun r hr => (h r hr).1)]
  have hwd : weekdaySub rs = rs := condSub_id (fun r hr => (h r hr).2.1)
  have hnb : numberSub rs = rs := condSub_id (fun r hr => (h r hr).1)
  have hmo : monthSub rs = rs := condSub_id (fun r hr => (h r hr).2.2)
  rw [hwd, hnb, hmo]

theorem runsP_any_all {s r : List Char}
    (h : r ∈ runsP isWordChar s) (hw : wordItem r = true) :
    r.all isWordChar = true := by
  rcases List.any_eq_true.mp hw with ⟨x, hx, hxw⟩
  refine List.all_eq_true.mpr ?_
  intro b hb
  rw [runsP_homog h b hb x hx, hxw]

/-! ### The word runs and characters of a canonicalized string -/

theorem wordRuns_canonL (s : List Char) :
    wordRuns (canonL s) =
      (canonStages (runsP isWordChar (lowerL s))).filter wordItem := by
  unfold canonL collapseStrip
  rw [wordRuns_pyStrip, wordRuns_collapseChars, wordRuns_pipeRep]
  exact wordRuns_flatten_items _
    (canonStages_ne_nil (fun r hr => runsP_mem_ne_nil hr))
    (canonStages_homog (fun r hr => runsP_any_all hr))
    (canonStages_chain (runsP_noAdjWords _))

theorem mem_canonL {s : List Char} {c : Char} (h : c ∈ canonL s) :
    c ∈ lowerL s ∨ c = ' ' := by
  have h₁ : c ∈ pipeRep (canonStages (runsP isWordChar (lowerL s))).flatten
      ∨ c = ' ' := by
    rcases mem_collapseChars (mem_pyStrip h) with h' | h'
    · left; exact h'
    · right; exact h'
  rcases h₁ with h₁ | h₁
  · rcases List.mem_map.mp h₁ with ⟨x, hx, hxc⟩
    by_cases hpip : x = '|'
    · rw [if_pos hpip] at hxc
      right; exact hxc.symm
    · rw [if_neg hpip] at hxc
      rcases List.mem_flatten.mp hx with ⟨l, hl, hxl⟩
      rcases mem_canonStages hl with hl' | hl'
      · left
        rw [← hxc]
        rw [← runsP_flatten isWordChar (lowerL s)]
        exact List.mem_flatten.mpr ⟨l, hl', hxl⟩
      · right
        rw [hl'] at hxl
        rw [← hxc, List.mem_singleton.mp hxl]
  · right; exact h₁

theorem canonL_lowered (s : List Char) : ∀ c ∈ canonL s, pyLower c = c := by
  intro c hc
  rcases mem_canonL hc with h | h
  · rcases List.mem_map.mp h with ⟨x, _, hxc⟩
    rw [← hxc]
    exact pyLower_idem x
  · rw [h]
    decide

theorem canonL_noPipe (s : List Char) : ∀ c ∈ canonL s, c ≠ '|' := by
  intro c hc
  have h₁ : c ∈ pipeRep (canonStages (runsP isWordChar (lowerL s))).flatten
      ∨ c = ' ' := by
    rcases mem_collapseChars (mem_pyStrip hc) with h' | h'
    · left; exact h'
    · right; exact h'
  rcases h₁ with h₁ | h₁
  · rcases List.mem_map.mp h₁ with ⟨x, _, hxc⟩
    by_cases hpip : x = '|'
    · rw [if_pos hpip] at hxc
      rw [← hxc]; decide
    · rw [if_neg hpip] at hxc
      rw [← hxc]; exact hpip
  · rw [h₁]; decide

theorem canonL_runs_preds (s : List Char) :
    ∀ r ∈ runsP isWordChar (canonL s),
      isNum12 r = false ∧ isWeekdayTok r = false ∧ isMonthTok r = false := by
  intro r hr
  cases hw : wordItem r with
  | true =>
    have hmemf : r ∈ (runsP isWordChar (canonL s)).filter wordItem :=
      List.mem_filter.mpr ⟨hr, hw⟩
    rw [runsP_filter_wordRuns, wordRuns_canonL] at hmemf
    exact canonStages_preds r (List.mem_filter.mp hmemf).1
  | false =>
    have hnw : ∀ c ∈ r, isWordChar c = false := by
      intro c hc
      rcases Bool.eq_false_or_eq_true (isWordChar c) with h' | h'
      · rw [Bool.eq_false_iff] at hw
        exact absurd (List.any_eq_true.mpr ⟨c, hc, h'⟩) hw
      · exact h'
    refine ⟨?_, ?_, ?_⟩
    · rcases Bool.eq_false_or_eq_true (isNum12 r) with h' | h'
      · exfalso
        have hdig : r.all isPyDigit = true :=
          (Bool.and_eq_true_iff.mp (Bool.and_eq_true_iff.mp h').1).2
        cases hrc : r with
        | nil =>
          have := (Bool.and_eq_true_iff.mp (Bool.and_eq_true_iff.mp h').1).1
          rw [hrc] at this
          cases this
        | cons x xs =>
          have hx : x ∈ r := by rw [hrc]; exact List.mem_cons_self _ _
          have := hnw x hx
          rw [isWordChar_of_digit (List.all_eq_true.mp hdig x hx)] at this
          cases this
      · exact h'
    · rcases Bool.eq_false_or_eq_true (isWeekdayTok r) with h' | h'
      · exfalso
        have hmem : r ∈ weekdayTokens := List.elem_iff.mp h'
        have hword : ∀ t ∈ weekdayTokens, wordItem t = true := by decide
        have := hword r hmem
        rcases List.any_eq_true.mp this with ⟨x, hx, hxw⟩
        rw [hnw x hx] at hxw
        cases hxw
      · exact h'
    · rcases Bool.eq_false_or_eq_true (isMonthTok r) with h' | h'
      · exfalso
        have hmem : lowerL r ∈ monthTokens := List.elem_iff.mp h'
        have hword : ∀ t ∈ monthTokens, wordItem t = true := by decide
        rcases List.any_eq_true.mp (hword _ hmem) with ⟨y, hy, hyw⟩
        rcases List.mem_map.mp hy with ⟨x, hx, hxy⟩
        rw [← hxy, pyLower_word] at hyw
        rw [hnw x hx] at hyw
        cases hyw
      · exact h'

/-! ### Idempotence of the canonicalization -/

theorem canonL_idem (s : List Char) : canonL (canonL s) = canonL s := by
  have hlow : lowerL (canonL s) = canonL s := lowerL_id (canonL_lowered s)
  have hst : canonStages (runsP isWordChar (canonL s)) =
      runsP isWordChar (canonL s) := canonStages_id (canonL_runs_preds s)
  have hpipe : pipeRep (canonL s) = canonL s := pipeRep_id (canonL_noPipe s)
  show collapseStrip (pipeRep (canonStages (runsP isWordChar
    (lowerL (canonL s)))).flatten) = canonL s
  rw [hlow, hst, runsP_flatten, hpipe]
  exact collapseStrip_idem
    (pipeRep (canonStages (runsP isWordChar (lowerL s))).flatten)

/-- **C9.** `canonicalize_activity_text` (source lines 38-55) is
idempotent: for every string `x`, `canon(canon(x)) = canon(x)`.  The
second pass finds nothing left to rewrite: the output is already
lower-cased, free of `|`, whitespace-collapsed and stripped, and its
maximal word runs contain no time pattern, weekday name, standalone 1-2
digit number or month token. -/
theorem canonicalize_idempotent (x : String) :
    canonicalize_activity_text (canonicalize_activity_text x) =
      canonicalize_activity_text x := by
  show (canonL (canonL x.data)).asString = (canonL x.data).asString
  rw [canonL_idem]

end GenerateIcs
